import Mathlib

set_option maxRecDepth 8000

/-!
Shallow embedding of the pegp parser-combinator library (src/index.ts).

The lexer (`Input`, `nextLexeme`, `createLexeme`, `save`/`rollback`/`commit`),
the rule combinators (`TokenRule.exec`, `SequenceRule`, `EitherRule`,
`ZeroOrMoreRule`, `LookAheadRule`, `NotRule`, `OptionalRule`, `AnyRule`,
`TransformRule`, `ForwardRule`) and `LanguageRule.parse` are translated
directly from the TypeScript source.  Host regular expressions are abstracted
as matcher functions `List Char → Nat → Option Nat` returning the length of a
sticky match at the given offset (the `gy` flags set by `Token`).  JavaScript
values produced by rules are modelled by `Val`, with JavaScript truthiness
(`while (res2 = this.rule.exec(l))` tests truthiness of the result).
Divergence of the source's unbounded loops is modelled with fuel: a result of
`none` means the computation did not finish within the given fuel.
-/

namespace Pegp

/-- A token rule: an abstracted sticky regex (`matchAt str i` returns the
length of the match of the regexp at offset `i` of `str`, or `none`) together
with the mutable `skippable` flag. -/
structure TokenRule where
  matchAt : List Char → Nat → Option Nat
  skippable : Bool

/-- A lexeme: matched text, identity of the producing token rule (its index in
the `Input`'s token list, modelling JS object identity), byte index, line and
column.  The `match` array of the source carries no extra information used by
the library and is omitted. -/
structure Lexeme where
  text : List Char
  tok : Nat
  index : Nat
  line : Nat
  column : Nat
deriving DecidableEq

instance : Inhabited Lexeme := ⟨⟨[], 0, 0, 0, 0⟩⟩

/-- The `Input` class: token rules, lexeme vector, save stack, furthest
lexeme, current position, tokenisation offset, line/column counters and the
source string. -/
structure Input where
  tokens : List TokenRule
  lexemes : List Lexeme
  stack : List Int
  last_lexeme : Option Lexeme
  lex_position : Int
  last_index : Nat
  current_line : Nat
  current_column : Nat
  string : List Char

/-- `new Input(tokens)`. -/
def mkInput (toks : List TokenRule) : Input :=
  ⟨toks, [], [], none, -1, 0, 1, 1, []⟩

/-- `Input.feed`: set the string, reset positions (the lexeme vector is not
cleared, exactly as in the source). -/
def feed (s : Input) (str : List Char) : Input :=
  { s with string := str, lex_position := -1, last_index := 0,
           current_line := 1, current_column := 1, stack := [] }

/-- `Input.save`. -/
def save (s : Input) : Input :=
  { s with stack := s.lex_position :: s.stack }

/-- `Input.rollback`: pop the stack into `lex_position`; no-op on an empty
stack. -/
def rollback (s : Input) : Input :=
  match s.stack with
  | [] => s
  | p :: st => { s with lex_position := p, stack := st }

/-- `Input.commit`: pop and discard; no-op on an empty stack. -/
def commit (s : Input) : Input :=
  match s.stack with
  | [] => s
  | _ :: st => { s with stack := st }

/-- The `skippable` flag of token rule `i`. -/
def skipFlag (toks : List TokenRule) (i : Nat) : Bool :=
  ((toks.get? i).map (·.skippable)).getD false

/-- Write the `skippable` flag of token rule `i` (JS mutates the shared rule
object; here the rule lives in the `Input`'s token list). -/
def setSkipList : List TokenRule → Nat → Bool → List TokenRule
  | [], _, _ => []
  | t :: ts, 0, b => { t with skippable := b } :: ts
  | t :: ts, n+1, b => t :: setSkipList ts n b

def setSkip (s : Input) (i : Nat) (b : Bool) : Input :=
  { s with tokens := setSkipList s.tokens i b }

/-- Scan a lexeme suffix for the first entry that is not skipped
(`skip && lexemes[position].token.skippable` in `nextLexeme`'s first loop);
returns its relative offset. -/
def findNonSkip (toks : List TokenRule) (skip : Bool) : List Lexeme → Option Nat
  | [] => none
  | l :: rest =>
    if skip && skipFlag toks l.tok then (findNonSkip toks skip rest).map (· + 1)
    else some 0

/-- Result of the first loop of `nextLexeme`: either a lexeme already in the
vector (with its absolute position), or the final value of the loop variable
`position` when the scan exhausts the vector. -/
def scanExisting (toks : List TokenRule) (skip : Bool) (lexemes : List Lexeme)
    (position : Int) : (Int × Lexeme) ⊕ Int :=
  if position < (lexemes.length : Int) - 1 then
    match findNonSkip toks skip (lexemes.drop (position + 1).toNat) with
    | some off =>
      match (lexemes.drop (position + 1).toNat).get? off with
      | some l => Sum.inl (((position + 1).toNat + off : Nat), l)
      | none => Sum.inr position
    | none => Sum.inr ((lexemes.length : Int) - 1)
  else Sum.inr position

/-- Count lines and columns over matched text (the loop in `createLexeme`). -/
def advanceLineCol : Nat → Nat → List Char → Nat × Nat
  | ln, _, '\n' :: rest => advanceLineCol (ln + 1) 1 rest
  | ln, col, _ :: rest => advanceLineCol ln (col + 1) rest
  | ln, col, [] => (ln, col)

/-- `Input.createLexeme`: build the lexeme at `last_index`, update the
line/column counters, advance `last_index` by the matched length and push the
lexeme. -/
def createLexeme (s : Input) (ti len : Nat) : Lexeme × Input :=
  let txt := (s.string.drop s.last_index).take len
  let lxm : Lexeme := ⟨txt, ti, s.last_index, s.current_line, s.current_column⟩
  let lc := advanceLineCol s.current_line s.current_column txt
  (lxm, { s with current_line := lc.1, current_column := lc.2,
                 last_index := s.last_index + txt.length,
                 lexemes := s.lexemes ++ [lxm] })

/-- The `for (var t of tokens)` loop: first rule whose regex matches at the
offset, together with the rule's index and the match length.  Note that, as
in the source, a zero-length match is accepted. -/
def firstTokenMatchAux (str : List Char) (i : Nat) :
    List TokenRule → Nat → Option (Nat × Nat)
  | [], _ => none
  | t :: ts, ti =>
    match t.matchAt str i with
    | some len => some (ti, len)
    | none => firstTokenMatchAux str i ts (ti + 1)

def firstTokenMatch (toks : List TokenRule) (str : List Char) (i : Nat) :
    Option (Nat × Nat) :=
  firstTokenMatchAux str i toks 0

/-- Outcome of `nextLexeme`: a lexeme, end of input (`null`), or the
`Illegal input` exception. -/
inductive LexRes where
  | found (l : Lexeme)
  | eof
  | illegal
deriving DecidableEq

/-- The second loop of `nextLexeme` (tokenising fresh lexemes); fuel bounds
the number of iterations, since a zero-length skippable match makes this loop
run forever. -/
def tokLoop : Nat → Bool → Bool → Int → Input → Option (LexRes × Input)
  | 0, _, _, _, _ => none
  | fuel+1, update, skip, position, s =>
    if s.last_index < s.string.length then
      match firstTokenMatch s.tokens s.string s.last_index with
      | some (ti, len) =>
        let position' := position + 1
        let cl := createLexeme s ti len
        if skip && skipFlag s.tokens ti then
          tokLoop fuel update skip position' cl.2
        else
          some (.found cl.1,
            if update then { cl.2 with lex_position := position' } else cl.2)
      | none => some (.illegal, s)
    else
      some (.eof, if update then { s with lex_position := position } else s)

/-- `Input.nextLexeme(update_position, skip)`. -/
def nextLexeme (fuel : Nat) (update skip : Bool) (s : Input) :
    Option (LexRes × Input) :=
  match scanExisting s.tokens skip s.lexemes s.lex_position with
  | Sum.inl jl =>
    some (.found jl.2, if update then { s with lex_position := jl.1 } else s)
  | Sum.inr position' => tokLoop fuel update skip position' s

/-- The `last_lexeme` update shared by `peek` and `next`:
`if (!this.last_lexeme || res && res.index > this.last_lexeme.index)
this.last_lexeme = res`. -/
def updateLast (s : Input) (res : Option Lexeme) : Input :=
  match s.last_lexeme with
  | none => { s with last_lexeme := res }
  | some ll =>
    match res with
    | some r => if ll.index < r.index then { s with last_lexeme := some r } else s
    | none => s

/-- `Input.peek`: `nextLexeme(false, skip)` plus the `last_lexeme` update.
If `nextLexeme` throws, the update is skipped (the exception propagates). -/
def peek (fuel : Nat) (s : Input) : Option (LexRes × Input) :=
  match nextLexeme fuel false true s with
  | none => none
  | some (.illegal, s') => some (.illegal, s')
  | some (.found l, s') => some (.found l, updateLast s' (some l))
  | some (.eof, s') => some (.eof, updateLast s' none)

/-- `Input.next`: `nextLexeme(true, skip)` plus the `last_lexeme` update. -/
def next (fuel : Nat) (s : Input) : Option (LexRes × Input) :=
  match nextLexeme fuel true true s with
  | none => none
  | some (.illegal, s') => some (.illegal, s')
  | some (.found l, s') => some (.found l, updateLast s' (some l))
  | some (.eof, s') => some (.eof, updateLast s' none)

/-- JavaScript values produced by rules: `null`, booleans, numbers, strings,
lexemes and arrays. -/
inductive Val where
  | vnull
  | vbool (b : Bool)
  | vnum (n : Int)
  | vstr (s : List Char)
  | vlexeme (l : Lexeme)
  | varr (vs : List Val)

/-- JavaScript truthiness of a `Val` (objects and arrays are truthy). -/
def truthy : Val → Bool
  | .vnull => false
  | .vbool b => b
  | .vnum n => n != 0
  | .vstr s => !s.isEmpty
  | .vlexeme _ => true
  | .varr _ => true

/-- Outcome of a rule's `exec`: a matched value, the `NOMATCH` sentinel, or a
thrown error (`Illegal input`, or a missing forward rule). -/
inductive Out where
  | ok (v : Val)
  | noMatch
  | illegal

/-- The rule combinators of the library.  `tok i` is `TokenRule` number `i`
acting as a rule; `tf` is `TransformRule`; `ref` is `ForwardRule`, resolved
in an environment of rules (modelling the thunk, so recursive grammars are
expressible). -/
inductive Rule where
  | tok (i : Nat)
  | seq (rs : List Rule)
  | either (rs : List Rule)
  | zeroOrMore (r : Rule)
  | lookAhead (r : Rule)
  | not (r : Rule)
  | opt (r : Rule)
  | any
  | tf (r : Rule) (f : Val → Option Val)
  | ref (i : Nat)

/-- The `protectLexerState` decorator: save; run the body; on `NOMATCH`
rollback, on a result commit; a thrown exception propagates without
rollback or commit. -/
def protect (body : Input → Option (Out × Input)) (s : Input) :
    Option (Out × Input) :=
  match body (save s) with
  | none => none
  | some (.illegal, s') => some (.illegal, s')
  | some (.noMatch, s') => some (.noMatch, rollback s')
  | some (.ok v, s') => some (.ok v, commit s')

/-- `TokenRule.exec`: temporarily clear the rule's own `skippable` flag
around the `peek`, restore it, and on success clear/restore it again around
the `next`. -/
def tokExec (fuel : Nat) (i : Nat) (s : Input) : Option (Out × Input) :=
  let old := skipFlag s.tokens i
  match peek fuel (setSkip s i false) with
  | none => none
  | some (.illegal, s2) => some (.illegal, s2)
  | some (.eof, s2) => some (.noMatch, setSkip s2 i old)
  | some (.found l, s2) =>
    let s3 := setSkip s2 i old
    if l.tok = i then
      match next fuel (setSkip s3 i false) with
      | none => none
      | some (.illegal, s4) => some (.illegal, s4)
      | some (.eof, s4) => some (.ok .vnull, setSkip s4 i old)
      | some (.found l2, s4) => some (.ok (.vlexeme l2), setSkip s4 i old)
    else some (.noMatch, s3)

/-- The loop of `SequenceRule.exec`. -/
def seqLoop (execf : Rule → Input → Option (Out × Input)) :
    List Rule → List Val → Input → Option (Out × Input)
  | [], acc, s => some (.ok (.varr acc), s)
  | r :: rs, acc, s =>
    match execf r s with
    | none => none
    | some (.illegal, s') => some (.illegal, s')
    | some (.noMatch, s') => some (.noMatch, s')
    | some (.ok v, s') => seqLoop execf rs (acc ++ [v]) s'

/-- The loop of `EitherRule.exec`. -/
def eitherLoop (execf : Rule → Input → Option (Out × Input)) :
    List Rule → Input → Option (Out × Input)
  | [], s => some (.noMatch, s)
  | r :: rs, s =>
    match execf r s with
    | none => none
    | some (.illegal, s') => some (.illegal, s')
    | some (.ok v, s') => some (.ok v, s')
    | some (.noMatch, s') => eitherLoop execf rs s'

/-- The loop of `ZeroOrMoreRule.exec`:
`while (res2 = this.rule.exec(l)) { if (res2 === NOMATCH) break; res.push(res2) }`.
The `NOMATCH` sentinel is a truthy object, so the loop body runs and breaks;
a falsy matched value ends the loop without being pushed. -/
def zomLoop (execf : Input → Option (Out × Input)) :
    Nat → List Val → Input → Option (Out × Input)
  | 0, _, _ => none
  | k+1, acc, s =>
    match execf s with
    | none => none
    | some (.illegal, s') => some (.illegal, s')
    | some (.noMatch, s') => some (.ok (.varr acc), s')
    | some (.ok v, s') =>
      if truthy v then zomLoop execf k (acc ++ [v]) s'
      else some (.ok (.varr acc), s')

/-- `Rule.exec`, by cases on the combinator, exactly following each class's
`exec` in the source (with `protect` applied to the decorated ones).  Fuel
decreases on every recursive rule execution; `none` means the fuel ran out,
which for every fuel value means the source diverges. -/
def exec : Nat → List Rule → Rule → Input → Option (Out × Input)
  | 0, _, _, _ => none
  | fuel+1, env, r, s =>
    match r with
    | .tok i => tokExec (fuel+1) i s
    | .any =>
      match next (fuel+1) s with
      | none => none
      | some (.found l, s') => some (.ok (.vlexeme l), s')
      | some (.eof, s') => some (.noMatch, s')
      | some (.illegal, s') => some (.illegal, s')
    | .seq rs => protect (fun s0 => seqLoop (fun r' s' => exec fuel env r' s') rs [] s0) s
    | .either rs => protect (fun s0 => eitherLoop (fun r' s' => exec fuel env r' s') rs s0) s
    | .zeroOrMore r' =>
      protect (fun s0 => zomLoop (fun s' => exec fuel env r' s') fuel [] s0) s
    | .opt r' =>
      protect (fun s0 =>
        match exec fuel env r' s0 with
        | none => none
        | some (.noMatch, s1) => some (.ok .vnull, s1)
        | some (o, s1) => some (o, s1)) s
    | .tf r' fn =>
      protect (fun s0 =>
        match exec fuel env r' s0 with
        | none => none
        | some (.ok v, s1) =>
          some (match fn v with
                | some u => (.ok u, s1)
                | none => (.noMatch, s1))
        | some (o, s1) => some (o, s1)) s
    | .lookAhead r' =>
      match exec fuel env r' (save s) with
      | none => none
      | some (.illegal, s1) => some (.illegal, s1)
      | some (o, s1) => some (o, rollback s1)
    | .not r' =>
      match exec fuel env r' (save s) with
      | none => none
      | some (.illegal, s1) => some (.illegal, s1)
      | some (.ok _, s1) => some (.noMatch, rollback s1)
      | some (.noMatch, s1) => some (.ok .vnull, rollback s1)
    | .ref i =>
      match env.get? i with
      | some r' => exec fuel env r' s
      | none => some (.illegal, s)

/-- Result of `LanguageRule.parse`: the top rule's value, the `NOMATCH`
sentinel (which `parse` returns unchanged), the `unexpected` error thrown on
leftover input (with the position and text of the cited lexeme), or a
propagated `Illegal input` error. -/
inductive POut where
  | ret (v : Val)
  | retNomatch
  | errUnexpected (line col : Nat) (text : List Char)
  | errIllegal

/-- The protected `LanguageRule.exec` on a freshly fed `Input`
(`is_toplevel = true`). -/
def topExec (fuel : Nat) (env : List Rule) (top : Rule) (toks : List TokenRule)
    (str : List Char) : Option (Out × Input) :=
  protect (exec fuel env top) (feed (mkInput toks) str)

/-- `LanguageRule.parse`: run the protected top rule, `peek` for a leftover
lexeme; if one remains, throw `unexpected` citing
`lexer.last_lexeme || leftover`; otherwise return the rule's result, even
when that result is the `NOMATCH` sentinel. -/
def parse (fuel : Nat) (toks : List TokenRule) (env : List Rule) (top : Rule)
    (str : List Char) : Option POut :=
  match topExec fuel env top toks str with
  | none => none
  | some (.illegal, _) => some .errIllegal
  | some (out, s1) =>
    match peek fuel s1 with
    | none => none
    | some (.illegal, _) => some .errIllegal
    | some (.found l, s2) =>
      let last := s2.last_lexeme.getD l
      some (.errUnexpected last.line last.column last.text)
    | some (.eof, _) =>
      match out with
      | .ok v => some (.ret v)
      | _ => some .retNomatch

/-! Invariants and auxiliary predicates used by the theorems. -/

/-- `chainB o ls` holds when the lexemes of `ls` occupy adjacent byte ranges
starting at offset `o`: each lexeme's `index` is the end of the previous
one's range. -/
def chainB : Nat → List Lexeme → Bool
  | _, [] => true
  | o, l :: ls => (l.index == o) && chainB (o + l.text.length) ls

/-- End offset of a chain of lexemes starting at `o`. -/
def endFrom (o : Nat) (ls : List Lexeme) : Nat :=
  ls.foldl (fun a l => a + l.text.length) o

/-- Lexer invariant on the lexeme vector and `last_index`: the vector is an
adjacent chain and `last_index` is its end offset. -/
def invL (ls : List Lexeme) (li : Nat) : Bool :=
  match ls with
  | [] => true
  | l :: _ => chainB l.index ls && (endFrom l.index ls == li)

def invB (s : Input) : Bool :=
  invL s.lexemes s.last_index

/-- All lexemes of the vector have non-empty text. -/
def allNE (ls : List Lexeme) : Bool :=
  ls.all (fun l => !l.text.isEmpty)

/-- Every matcher only produces non-empty matches (the token rules' regexes
cannot match the empty string). -/
def NEmatchers (ms : List (List Char → Nat → Option Nat)) : Prop :=
  ∀ m ∈ ms, ∀ str i n, m str i = some n → 0 < n

/-- Relational summary of what any rule execution does to the lexer state:
the string never changes, the matchers never change, the lexeme vector only
grows at the end, `last_index` never decreases, and the adjacency invariant
and (for non-empty matchers) non-emptiness of lexeme texts are preserved. -/
def ExecEvo (s s' : Input) : Prop :=
  s'.string = s.string ∧
  s'.tokens.map (·.matchAt) = s.tokens.map (·.matchAt) ∧
  (∃ t, s'.lexemes = s.lexemes ++ t) ∧
  s.last_index ≤ s'.last_index ∧
  (invB s = true → invB s' = true) ∧
  (NEmatchers (s.tokens.map (·.matchAt)) → allNE s.lexemes = true →
    allNE s'.lexemes = true)

/-- The rules whose `exec` is wrapped in the save/rollback discipline, or
does its own save/rollback, or never moves the position before a no-match:
every rule constructor except `AnyRule` (whose `exec` is not decorated) and
`ForwardRule` (which merely delegates). -/
def protHead : Rule → Bool
  | .any => false
  | .ref _ => false
  | _ => true

/-! Concrete token rules and grammars used as witnesses and
counterexamples. -/

/-- A matcher recognising the single character `c` (the regex `Token('c')`,
compiled sticky). -/
def charMatcher (c : Char) : List Char → Nat → Option Nat :=
  fun str i =>
    match str.get? i with
    | some c2 => if c2 = c then some 1 else none
    | none => none

def tokA : TokenRule := ⟨charMatcher 'a', false⟩

def tokB : TokenRule := ⟨charMatcher 'b', false⟩

/-- A skippable whitespace token (a `TokenList.skip` rule). -/
def tokSp : TokenRule := ⟨charMatcher ' ', true⟩

/-- A token rule whose regex matches the empty string at every offset
(like `/x*/`). -/
def tokEmpty : TokenRule := ⟨fun _ _ => some 0, false⟩

/-- A skippable zero-length token rule (a skip rule whose regex matches the
empty string). -/
def tokEmptySkip : TokenRule := ⟨fun _ _ => some 0, true⟩

/-- The lexeme produced by tokenising the one-character string `a` with
`tokA`. -/
def lexA : Lexeme := ⟨('a' :: []), 0, 0, 1, 1⟩

/-- The `Input` produced by `parse` for the one-character string `a` over the
single token rule `tokA`. -/
def sA : Input := feed (mkInput [tokA]) ('a' :: [])

/-- The state after one `LookAhead(tok 0)` iteration of `ZeroOrMore` on
`sA`: the lexeme is tokenised and memoised but the position is rolled back —
a fixed point of the loop, which therefore never terminates. -/
def sA1 : Input :=
  ⟨[tokA], [lexA], [(-1 : Int)], some lexA, -1, 1, 1, 2, ('a' :: [])⟩

/-- Extract the final state of a concrete execution (used to instantiate
theorems at concrete inputs). -/
def stateOf (r : Option (Out × Input)) : Input :=
  (r.map Prod.snd).getD (mkInput [])

def outOf (r : Option (Out × Input)) : Option Out :=
  r.map Prod.fst

def lexStateOf (r : Option (LexRes × Input)) : Input :=
  (r.map Prod.snd).getD (mkInput [])

def resOf (r : Option (Out × Input)) : Out × Input :=
  r.getD (.illegal, mkInput [])

/-- A transform returning the number `0` — a falsy JavaScript value, as
`parseFloat("0")` produces. -/
def tfZero : Val → Option Val := fun _ => some (.vnum 0)

/-! Basic lemmas about the state helpers. -/

theorem setSkipList_matchAt (ts : List TokenRule) (i : Nat) (b : Bool) :
    (setSkipList ts i b).map (·.matchAt) = ts.map (·.matchAt) := by
  induction ts generalizing i with
  | nil => rfl
  | cons t ts ih => cases i <;> simp [setSkipList, ih]

theorem setSkipList_setSkipList (ts : List TokenRule) (i : Nat) (b c : Bool) :
    setSkipList (setSkipList ts i b) i c = setSkipList ts i c := by
  induction ts generalizing i with
  | nil => rfl
  | cons t ts ih => cases i <;> simp [setSkipList, ih]

theorem setSkipList_restore (ts : List TokenRule) (i : Nat) (b : Bool) :
    setSkipList (setSkipList ts i b) i (skipFlag ts i) = ts := by
  induction ts generalizing i with
  | nil => rfl
  | cons t ts ih =>
    cases i with
    | zero => simp [setSkipList, skipFlag]
    | succ n => simp [setSkipList, skipFlag] at ih ⊢; exact ih n

theorem endFrom_cons (o : Nat) (l : Lexeme) (ls : List Lexeme) :
    endFrom o (l :: ls) = endFrom (o + l.text.length) ls := rfl

theorem chainB_append (o : Nat) (ls : List Lexeme) (l : Lexeme) :
    chainB o (ls ++ [l]) = (chainB o ls && (l.index == endFrom o ls)) := by
  induction ls generalizing o with
  | nil => simp [chainB, endFrom]
  | cons l0 ls ih =>
    have h2 := ih (o + l0.text.length)
    simp only [List.cons_append, chainB, endFrom_cons, Bool.and_assoc,
      List.append_eq] at h2 ⊢
    rw [h2]

theorem endFrom_append (o : Nat) (ls : List Lexeme) (l : Lexeme) :
    endFrom o (ls ++ [l]) = endFrom o ls + l.text.length := by
  simp [endFrom, List.foldl_append]

theorem invL_append (ls : List Lexeme) (li : Nat) (txt : List Char)
    (ti ln col : Nat) (h : invL ls li = true) :
    invL (ls ++ [⟨txt, ti, li, ln, col⟩]) (li + txt.length) = true := by
  cases ls with
  | nil => simp [invL, chainB, endFrom]
  | cons l0 rest =>
    simp only [invL, Bool.and_eq_true, beq_iff_eq] at h
    obtain ⟨hch, hend⟩ := h
    rw [List.cons_append]
    simp only [invL]
    rw [show l0 :: (rest ++ [(⟨txt, ti, li, ln, col⟩ : Lexeme)]) =
        (l0 :: rest) ++ [(⟨txt, ti, li, ln, col⟩ : Lexeme)] from rfl,
      chainB_append, endFrom_append]
    simp [hch, hend]

theorem firstTokenMatchAux_mem (str : List Char) (i : Nat)
    (ts : List TokenRule) (k ti len : Nat)
    (h : firstTokenMatchAux str i ts k = some (ti, len)) :
    ∃ t ∈ ts, t.matchAt str i = some len := by
  induction ts generalizing k with
  | nil => simp [firstTokenMatchAux] at h
  | cons t ts ih =>
    simp only [firstTokenMatchAux] at h
    cases hm : t.matchAt str i with
    | some n => rw [hm] at h; simp at h; exact ⟨t, by simp, by rw [hm, h.2]⟩
    | none =>
      rw [hm] at h
      obtain ⟨t', ht', hm'⟩ := ih (k + 1) h
      exact ⟨t', by simp [ht'], hm'⟩

theorem ExecEvo.refl (s : Input) : ExecEvo s s :=
  ⟨rfl, rfl, ⟨[], by simp⟩, le_refl _, fun h => h, fun _ h => h⟩

theorem ExecEvo.trans {a b c : Input} (h1 : ExecEvo a b) (h2 : ExecEvo b c) :
    ExecEvo a c := by
  obtain ⟨e1, e2, ⟨t1, e3⟩, e4, e5, e6⟩ := h1
  obtain ⟨f1, f2, ⟨t2, f3⟩, f4, f5, f6⟩ := h2
  refine ⟨f1.trans e1, f2.trans e2, ⟨t1 ++ t2, by simp [f3, e3]⟩,
    le_trans e4 f4, fun h => f5 (e5 h), fun hne hall => ?_⟩
  have hne2 : NEmatchers (b.tokens.map (·.matchAt)) := by rw [e2]; exact hne
  exact f6 hne2 (e6 hne hall)

/-! Lexer evolution lemmas: what `tokLoop`, `nextLexeme`, `peek` and `next`
do to the state. -/

/-- Lexer-level evolution: `ExecEvo` plus the facts that the lexer never
touches the save stack or the token rules. -/
def LexEvo (s s' : Input) : Prop :=
  ExecEvo s s' ∧ s'.stack = s.stack ∧ s'.tokens = s.tokens

theorem LexEvo.lrefl (s : Input) : LexEvo s s :=
  ⟨ExecEvo.refl s, rfl, rfl⟩

theorem LexEvo.ltrans {a b c : Input} (h1 : LexEvo a b) (h2 : LexEvo b c) :
    LexEvo a c :=
  ⟨h1.1.trans h2.1, h2.2.1.trans h1.2.1, h2.2.2.trans h1.2.2⟩

theorem LexEvo.lexpos {s s' : Input} (h : LexEvo s s') (p : Int) :
    LexEvo s { s' with lex_position := p } := by
  obtain ⟨⟨e1, e2, e3, e4, e5, e6⟩, h2, h3⟩ := h
  exact ⟨⟨e1, e2, e3, e4, e5, e6⟩, h2, h3⟩

theorem LexEvo.last_lexeme {s s' : Input} (h : LexEvo s s') (r : Option Lexeme) :
    LexEvo s { s' with last_lexeme := r } := by
  obtain ⟨⟨e1, e2, e3, e4, e5, e6⟩, h2, h3⟩ := h
  exact ⟨⟨e1, e2, e3, e4, e5, e6⟩, h2, h3⟩

theorem createLexeme_lexEvo (s : Input) (ti len : Nat)
    (hguard : s.last_index < s.string.length)
    (hlen : NEmatchers (s.tokens.map (·.matchAt)) → 0 < len) :
    LexEvo s (createLexeme s ti len).2 := by
  refine ⟨⟨rfl, rfl, ⟨[(createLexeme s ti len).1], rfl⟩, by simp [createLexeme],
    ?_, ?_⟩, rfl, rfl⟩
  · intro h
    have h2 := invL_append s.lexemes s.last_index
      ((s.string.drop s.last_index).take len) ti s.current_line
      s.current_column h
    simpa only [invB, createLexeme] using h2
  · intro hne hall
    have hl := hlen hne
    have htxt : ((s.string.drop s.last_index).take len).length ≠ 0 := by
      simp only [List.length_take, List.length_drop]
      omega
    simp only [createLexeme, allNE, List.all_append, Bool.and_eq_true] at *
    refine ⟨hall, by simpa [List.isEmpty_iff, ← List.length_eq_zero] using htxt⟩

theorem tokLoop_lexEvo : ∀ (fuel : Nat) (u k : Bool) (p : Int) (s : Input)
    (r : LexRes) (s' : Input),
    tokLoop fuel u k p s = some (r, s') → LexEvo s s' := by
  intro fuel
  induction fuel with
  | zero => intro u k p s r s' h; simp [tokLoop] at h
  | succ fuel ih =>
    intro u k p s r s' h
    simp only [tokLoop] at h
    by_cases hg : s.last_index < s.string.length
    · rw [if_pos hg] at h
      cases hm : firstTokenMatch s.tokens s.string s.last_index with
      | none => rw [hm] at h; simp at h; rw [← h.2]; exact LexEvo.lrefl s
      | some tl =>
        rw [hm] at h
        simp only at h
        have hcl : LexEvo s (createLexeme s tl.1 tl.2).2 := by
          refine createLexeme_lexEvo s tl.1 tl.2 hg (fun hne => ?_)
          obtain ⟨t, ht, hmt⟩ := firstTokenMatchAux_mem s.string s.last_index
            s.tokens 0 tl.1 tl.2 (by simpa [firstTokenMatch] using hm)
          exact hne t.matchAt (List.mem_map_of_mem _ ht) _ _ _ hmt
        by_cases hs : (k && skipFlag s.tokens tl.1) = true
        · rw [if_pos hs] at h
          exact hcl.ltrans (ih u k (p + 1) _ r s' h)
        · rw [if_neg hs] at h
          simp only [Option.some_inj, Prod.mk.injEq] at h
          rw [← h.2]
          by_cases hu : u
          · simpa [hu] using hcl.lexpos (p + 1)
          · simpa [hu] using hcl
    · rw [if_neg hg] at h
      simp only [Option.some_inj, Prod.mk.injEq] at h
      rw [← h.2]
      by_cases hu : u
      · simpa [hu] using (LexEvo.lrefl s).lexpos p
      · simpa [hu] using LexEvo.lrefl s

theorem nextLexeme_lexEvo (fuel : Nat) (u k : Bool) (s : Input)
    (r : LexRes) (s' : Input) (h : nextLexeme fuel u k s = some (r, s')) :
    LexEvo s s' := by
  simp only [nextLexeme] at h
  cases hs : scanExisting s.tokens k s.lexemes s.lex_position with
  | inl jl =>
    rw [hs] at h
    simp only [Option.some_inj, Prod.mk.injEq] at h
    rw [← h.2]
    by_cases hu : u
    · simpa [hu] using (LexEvo.lrefl s).lexpos jl.1
    · simpa [hu] using LexEvo.lrefl s
  | inr p => rw [hs] at h; exact tokLoop_lexEvo fuel u k p s r s' h

theorem updateLast_lexEvo (s0 : Input) (res : Option Lexeme) {s : Input}
    (he : LexEvo s s0) : LexEvo s (updateLast s0 res) := by
  unfold updateLast
  cases s0.last_lexeme with
  | none => exact he.last_lexeme res
  | some ll =>
    cases res with
    | none => exact he
    | some r =>
      by_cases h : ll.index < r.index
      · simp only [if_pos h]; exact he.last_lexeme _
      · simp only [if_neg h]; exact he

theorem peek_lexEvo (fuel : Nat) (s : Input) (r : LexRes) (s' : Input)
    (h : peek fuel s = some (r, s')) : LexEvo s s' := by
  simp only [peek] at h
  cases hn : nextLexeme fuel false true s with
  | none => rw [hn] at h; simp at h
  | some rs =>
    obtain ⟨r0, s0⟩ := rs
    have he := nextLexeme_lexEvo fuel false true s r0 s0 hn
    rw [hn] at h
    cases r0 with
    | found l =>
      simp only [Option.some_inj, Prod.mk.injEq] at h
      rw [← h.2]
      exact updateLast_lexEvo s0 (some l) he
    | eof =>
      simp only [Option.some_inj, Prod.mk.injEq] at h
      rw [← h.2]
      exact updateLast_lexEvo s0 none he
    | illegal =>
      simp only [Option.some_inj, Prod.mk.injEq] at h
      rw [← h.2]
      exact he

theorem next_lexEvo (fuel : Nat) (s : Input) (r : LexRes) (s' : Input)
    (h : next fuel s = some (r, s')) : LexEvo s s' := by
  simp only [next] at h
  cases hn : nextLexeme fuel true true s with
  | none => rw [hn] at h; simp at h
  | some rs =>
    obtain ⟨r0, s0⟩ := rs
    have he := nextLexeme_lexEvo fuel true true s r0 s0 hn
    rw [hn] at h
    cases r0 with
    | found l =>
      simp only [Option.some_inj, Prod.mk.injEq] at h
      rw [← h.2]
      exact updateLast_lexEvo s0 (some l) he
    | eof =>
      simp only [Option.some_inj, Prod.mk.injEq] at h
      rw [← h.2]
      exact updateLast_lexEvo s0 none he
    | illegal =>
      simp only [Option.some_inj, Prod.mk.injEq] at h
      rw [← h.2]
      exact he

/-- With `update_position = false`, `tokLoop` leaves `lex_position`
untouched. -/
theorem tokLoop_noupdate : ∀ (fuel : Nat) (k : Bool) (p : Int) (s : Input)
    (r : LexRes) (s' : Input),
    tokLoop fuel false k p s = some (r, s') →
    s'.lex_position = s.lex_position := by
  intro fuel
  induction fuel with
  | zero => intro k p s r s' h; simp [tokLoop] at h
  | succ fuel ih =>
    intro k p s r s' h
    simp only [tokLoop] at h
    by_cases hg : s.last_index < s.string.length
    · rw [if_pos hg] at h
      cases hm : firstTokenMatch s.tokens s.string s.last_index with
      | none => rw [hm] at h; simp at h; rw [← h.2]
      | some tl =>
        rw [hm] at h
        simp only at h
        by_cases hs : (k && skipFlag s.tokens tl.1) = true
        · rw [if_pos hs] at h
          rw [ih k (p + 1) _ r s' h]
          simp [createLexeme]
        · rw [if_neg hs] at h
          simp only [Bool.false_eq_true, if_false, Option.some_inj,
            Prod.mk.injEq] at h
          rw [← h.2]
          simp [createLexeme]
    · rw [if_neg hg] at h
      simp only [Bool.false_eq_true, if_false, Option.some_inj,
        Prod.mk.injEq] at h
      rw [← h.2]

/-- `peek` (which calls `nextLexeme(false, …)`) never moves
`lex_position`. -/
theorem peek_lexpos (fuel : Nat) (s : Input) (r : LexRes) (s' : Input)
    (h : peek fuel s = some (r, s')) : s'.lex_position = s.lex_position := by
  have base : ∀ r0 s0, nextLexeme fuel false true s = some (r0, s0) →
      s0.lex_position = s.lex_position := by
    intro r0 s0 h0
    simp only [nextLexeme] at h0
    cases hs : scanExisting s.tokens true s.lexemes s.lex_position with
    | inl jl =>
      rw [hs] at h0
      simp only [Bool.false_eq_true, if_false, Option.some_inj,
        Prod.mk.injEq] at h0
      rw [← h0.2]
    | inr p => rw [hs] at h0; exact tokLoop_noupdate fuel true p s r0 s0 h0
  simp only [peek] at h
  cases hn : nextLexeme fuel false true s with
  | none => rw [hn] at h; simp at h
  | some rs =>
    obtain ⟨r0, s0⟩ := rs
    have h0 := base r0 s0 hn
    rw [hn] at h
    cases r0 <;> simp only [Option.some_inj, Prod.mk.injEq] at h <;>
      rw [← h.2] <;>
      first
      | (rw [show ∀ s1 res, (updateLast s1 res).lex_position = s1.lex_position
            from fun s1 res => by
              unfold updateLast
              cases s1.last_lexeme with
              | none => rfl
              | some ll =>
                cases res with
                | none => rfl
                | some rr => by_cases hc : ll.index < rr.index <;> simp [hc]];
         exact h0)
      | exact h0

/-! Evolution of the state under `exec` (the first global pass): the string
and the matchers never change, the lexeme vector only grows, `last_index`
never decreases, and the adjacency and non-empty-text invariants are
preserved. -/

theorem ExecEvo.of_core {s s' : Input} (h1 : s'.string = s.string)
    (h2 : s'.tokens = s.tokens) (h3 : s'.lexemes = s.lexemes)
    (h4 : s'.last_index = s.last_index) : ExecEvo s s' := by
  refine ⟨h1, by rw [h2], ⟨[], by simp [h3]⟩, le_of_eq h4.symm, ?_, ?_⟩
  · intro h; unfold invB; rw [h3, h4]; exact h
  · intro _ h; rw [h3]; exact h

theorem ExecEvo.save (s : Input) : ExecEvo s (save s) :=
  ExecEvo.of_core rfl rfl rfl rfl

theorem ExecEvo.rollback (s : Input) : ExecEvo s (rollback s) := by
  unfold Pegp.rollback
  cases s.stack with
  | nil => exact ExecEvo.refl s
  | cons p st => exact ExecEvo.of_core rfl rfl rfl rfl

theorem ExecEvo.commit (s : Input) : ExecEvo s (commit s) := by
  unfold Pegp.commit
  cases s.stack with
  | nil => exact ExecEvo.refl s
  | cons p st => exact ExecEvo.of_core rfl rfl rfl rfl

theorem ExecEvo.setSkip (s : Input) (i : Nat) (b : Bool) :
    ExecEvo s (setSkip s i b) := by
  refine ⟨rfl, ?_, ⟨[], by simp [Pegp.setSkip]⟩, le_refl _, fun h => h,
    fun _ h => h⟩
  simp [Pegp.setSkip, setSkipList_matchAt]

theorem protect_evo (body : Input → Option (Out × Input))
    (hb : ∀ s out s', body s = some (out, s') → ExecEvo s s') :
    ∀ s out s', protect body s = some (out, s') → ExecEvo s s' := by
  intro s out s' h
  unfold protect at h
  cases hb0 : body (Pegp.save s) with
  | none => rw [hb0] at h; simp at h
  | some rs =>
    obtain ⟨o0, s0⟩ := rs
    have he : ExecEvo s s0 := (ExecEvo.save s).trans (hb _ _ _ hb0)
    rw [hb0] at h
    cases o0 with
    | illegal =>
      simp only [Option.some_inj, Prod.mk.injEq] at h
      rw [← h.2]; exact he
    | noMatch =>
      simp only [Option.some_inj, Prod.mk.injEq] at h
      rw [← h.2]; exact he.trans (ExecEvo.rollback s0)
    | ok v =>
      simp only [Option.some_inj, Prod.mk.injEq] at h
      rw [← h.2]; exact he.trans (ExecEvo.commit s0)

theorem seqLoop_evo (execf : Rule → Input → Option (Out × Input))
    (hf : ∀ r s out s', execf r s = some (out, s') → ExecEvo s s') :
    ∀ (rs : List Rule) (acc : List Val) (s : Input) (out : Out) (s' : Input),
    seqLoop execf rs acc s = some (out, s') → ExecEvo s s' := by
  intro rs
  induction rs with
  | nil =>
    intro acc s out s' h
    simp only [seqLoop, Option.some_inj, Prod.mk.injEq] at h
    rw [← h.2]; exact ExecEvo.refl s
  | cons r rest ih =>
    intro acc s out s' h
    simp only [seqLoop] at h
    cases h0 : execf r s with
    | none => rw [h0] at h; simp at h
    | some rs0 =>
      obtain ⟨o0, s0⟩ := rs0
      have he := hf _ _ _ _ h0
      rw [h0] at h
      cases o0 with
      | illegal =>
        simp only [Option.some_inj, Prod.mk.injEq] at h
        rw [← h.2]; exact he
      | noMatch =>
        simp only [Option.some_inj, Prod.mk.injEq] at h
        rw [← h.2]; exact he
      | ok v => exact he.trans (ih _ _ _ _ h)

theorem eitherLoop_evo (execf : Rule → Input → Option (Out × Input))
    (hf : ∀ r s out s', execf r s = some (out, s') → ExecEvo s s') :
    ∀ (rs : List Rule) (s : Input) (out : Out) (s' : Input),
    eitherLoop execf rs s = some (out, s') → ExecEvo s s' := by
  intro rs
  induction rs with
  | nil =>
    intro s out s' h
    simp only [eitherLoop, Option.some_inj, Prod.mk.injEq] at h
    rw [← h.2]; exact ExecEvo.refl s
  | cons r rest ih =>
    intro s out s' h
    simp only [eitherLoop] at h
    cases h0 : execf r s with
    | none => rw [h0] at h; simp at h
    | some rs0 =>
      obtain ⟨o0, s0⟩ := rs0
      have he := hf _ _ _ _ h0
      rw [h0] at h
      cases o0 with
      | illegal =>
        simp only [Option.some_inj, Prod.mk.injEq] at h
        rw [← h.2]; exact he
      | ok v =>
        simp only [Option.some_inj, Prod.mk.injEq] at h
        rw [← h.2]; exact he
      | noMatch => exact he.trans (ih _ _ _ h)

theorem zomLoop_evo (execf : Input → Option (Out × Input))
    (hf : ∀ s out s', execf s = some (out, s') → ExecEvo s s') :
    ∀ (k : Nat) (acc : List Val) (s : Input) (out : Out) (s' : Input),
    zomLoop execf k acc s = some (out, s') → ExecEvo s s' := by
  intro k
  induction k with
  | zero => intro acc s out s' h; simp [zomLoop] at h
  | succ k ih =>
    intro acc s out s' h
    simp only [zomLoop] at h
    cases h0 : execf s with
    | none => rw [h0] at h; simp at h
    | some rs0 =>
      obtain ⟨o0, s0⟩ := rs0
      have he := hf _ _ _ h0
      rw [h0] at h
      cases o0 with
      | illegal =>
        simp only [Option.some_inj, Prod.mk.injEq] at h
        rw [← h.2]; exact he
      | noMatch =>
        simp only [Option.some_inj, Prod.mk.injEq] at h
        rw [← h.2]; exact he
      | ok v =>
        simp only at h
        by_cases ht : truthy v = true
        · rw [if_pos ht] at h
          exact he.trans (ih _ _ _ _ h)
        · rw [if_neg ht] at h
          simp only [Option.some_inj, Prod.mk.injEq] at h
          rw [← h.2]; exact he

theorem tokExec_evo (fuel i : Nat) (s : Input) (out : Out) (s' : Input)
    (h : tokExec fuel i s = some (out, s')) : ExecEvo s s' := by
  unfold tokExec at h
  cases h1 : peek fuel (setSkip s i false) with
  | none => rw [h1] at h; simp at h
  | some rs1 =>
    obtain ⟨r1, s2⟩ := rs1
    have he1 : ExecEvo s s2 :=
      (ExecEvo.setSkip s i false).trans (peek_lexEvo _ _ _ _ h1).1
    rw [h1] at h
    cases r1 with
    | illegal =>
      simp only [Option.some_inj, Prod.mk.injEq] at h
      rw [← h.2]; exact he1
    | eof =>
      simp only [Option.some_inj, Prod.mk.injEq] at h
      rw [← h.2]; exact he1.trans (ExecEvo.setSkip s2 i _)
    | found l =>
      simp only at h
      by_cases hl : l.tok = i
      · rw [if_pos hl] at h
        have he3 : ExecEvo s (setSkip (setSkip s2 i (skipFlag s.tokens i)) i false) :=
          (he1.trans (ExecEvo.setSkip s2 i _)).trans (ExecEvo.setSkip _ i false)
        cases h2 : next fuel (setSkip (setSkip s2 i (skipFlag s.tokens i)) i false) with
        | none => rw [h2] at h; simp at h
        | some rs2 =>
          obtain ⟨r2, s4⟩ := rs2
          have he4 : ExecEvo s s4 := he3.trans (next_lexEvo _ _ _ _ h2).1
          rw [h2] at h
          cases r2 <;> simp only [Option.some_inj, Prod.mk.injEq] at h <;>
            rw [← h.2]
          · exact he4.trans (ExecEvo.setSkip s4 i _)
          · exact he4.trans (ExecEvo.setSkip s4 i _)
          · exact he4
      · rw [if_neg hl] at h
        simp only [Option.some_inj, Prod.mk.injEq] at h
        rw [← h.2]; exact he1.trans (ExecEvo.setSkip s2 i _)

/-- First global pass over `exec`: every terminating execution satisfies
`ExecEvo`. -/
theorem exec_evo : ∀ (fuel : Nat) (env : List Rule) (r : Rule) (s : Input)
    (out : Out) (s' : Input),
    exec fuel env r s = some (out, s') → ExecEvo s s' := by
  intro fuel
  induction fuel with
  | zero => intro env r s out s' h; simp [exec] at h
  | succ fuel ih =>
    intro env r s out s' h
    cases r with
    | tok i => exact tokExec_evo (fuel+1) i s out s' h
    | any =>
      simp only [exec] at h
      cases h1 : next (fuel+1) s with
      | none => rw [h1] at h; simp at h
      | some rs1 =>
        obtain ⟨r1, s1⟩ := rs1
        have he := (next_lexEvo _ _ _ _ h1).1
        rw [h1] at h
        cases r1 <;> simp only [Option.some_inj, Prod.mk.injEq] at h <;>
          rw [← h.2] <;> exact he
    | seq rs =>
      simp only [exec] at h
      exact protect_evo _ (fun s0 out0 s0' h0 =>
        seqLoop_evo _ (fun r1 s1 o1 s1' h1 => ih env r1 s1 o1 s1' h1)
          rs [] s0 out0 s0' h0) s out s' h
    | either rs =>
      simp only [exec] at h
      exact protect_evo _ (fun s0 out0 s0' h0 =>
        eitherLoop_evo _ (fun r1 s1 o1 s1' h1 => ih env r1 s1 o1 s1' h1)
          rs s0 out0 s0' h0) s out s' h
    | zeroOrMore r0 =>
      simp only [exec] at h
      exact protect_evo _ (fun s0 out0 s0' h0 =>
        zomLoop_evo _ (fun s1 o1 s1' h1 => ih env r0 s1 o1 s1' h1)
          fuel [] s0 out0 s0' h0) s out s' h
    | opt r0 =>
      simp only [exec] at h
      refine protect_evo _ (fun s0 out0 s0' h0 => ?_) s out s' h
      cases h1 : exec fuel env r0 s0 with
      | none => rw [h1] at h0; simp at h0
      | some rs1 =>
        obtain ⟨o1, s1⟩ := rs1
        have he := ih env r0 s0 o1 s1 h1
        rw [h1] at h0
        cases o1 <;> simp only [Option.some_inj, Prod.mk.injEq] at h0 <;>
          rw [← h0.2] <;> exact he
    | tf r0 fn =>
      simp only [exec] at h
      refine protect_evo _ (fun s0 out0 s0' h0 => ?_) s out s' h
      cases h1 : exec fuel env r0 s0 with
      | none => rw [h1] at h0; simp at h0
      | some rs1 =>
        obtain ⟨o1, s1⟩ := rs1
        have he := ih env r0 s0 o1 s1 h1
        rw [h1] at h0
        cases o1 with
        | ok v =>
          simp only at h0
          cases hfn : fn v with
          | some u =>
            rw [hfn] at h0
            simp only [Option.some_inj, Prod.mk.injEq] at h0
            rw [← h0.2]; exact he
          | none =>
            rw [hfn] at h0
            simp only [Option.some_inj, Prod.mk.injEq] at h0
            rw [← h0.2]; exact he
        | noMatch =>
          simp only [Option.some_inj, Prod.mk.injEq] at h0
          rw [← h0.2]; exact he
        | illegal =>
          simp only [Option.some_inj, Prod.mk.injEq] at h0
          rw [← h0.2]; exact he
    | lookAhead r0 =>
      simp only [exec] at h
      cases h1 : exec fuel env r0 (Pegp.save s) with
      | none => rw [h1] at h; simp at h
      | some rs1 =>
        obtain ⟨o1, s1⟩ := rs1
        have he := (ExecEvo.save s).trans (ih env r0 _ o1 s1 h1)
        rw [h1] at h
        cases o1 <;> simp only [Option.some_inj, Prod.mk.injEq] at h <;>
          rw [← h.2]
        · exact he.trans (ExecEvo.rollback s1)
        · exact he.trans (ExecEvo.rollback s1)
        · exact he
    | not r0 =>
      simp only [exec] at h
      cases h1 : exec fuel env r0 (Pegp.save s) with
      | none => rw [h1] at h; simp at h
      | some rs1 =>
        obtain ⟨o1, s1⟩ := rs1
        have he := (ExecEvo.save s).trans (ih env r0 _ o1 s1 h1)
        rw [h1] at h
        cases o1 <;> simp only [Option.some_inj, Prod.mk.injEq] at h <;>
          rw [← h.2]
        · exact he.trans (ExecEvo.rollback s1)
        · exact he.trans (ExecEvo.rollback s1)
        · exact he
    | ref i =>
      simp only [exec] at h
      cases hi : env.get? i with
      | none =>
        rw [hi] at h
        simp only [Option.some_inj, Prod.mk.injEq] at h
        rw [← h.2]; exact ExecEvo.refl s
      | some r0 =>
        rw [hi] at h
        exact ih env r0 s out s' h

/-! Second global pass: the save stack.  The lexer never reads or writes the
stack, every combinator pops exactly what it pushed (on any outcome other
than a thrown exception), and execution is insensitive to the stack contents
it started with. -/

theorem createLexeme_shift (s : Input) (st : List Int) (ti len : Nat) :
    createLexeme { s with stack := st } ti len =
      ((createLexeme s ti len).1,
        { (createLexeme s ti len).2 with stack := st }) := rfl

theorem tokLoop_shift : ∀ (fuel : Nat) (u k : Bool) (p : Int) (s : Input)
    (st : List Int),
    tokLoop fuel u k p { s with stack := st } =
      (tokLoop fuel u k p s).map (fun rs => (rs.1, { rs.2 with stack := st })) := by
  intro fuel
  induction fuel with
  | zero => intro u k p s st; simp [tokLoop]
  | succ fuel ih =>
    intro u k p s st
    simp only [tokLoop]
    by_cases hg : s.last_index < s.string.length
    · rw [if_pos hg, if_pos hg]
      cases hm : firstTokenMatch s.tokens s.string s.last_index with
      | none => simp
      | some tl =>
        obtain ⟨ti, len⟩ := tl
        simp only [createLexeme_shift]
        by_cases hs2 : (k && skipFlag s.tokens ti) = true
        · rw [if_pos hs2, if_pos hs2]
          exact ih u k (p + 1) (createLexeme s ti len).2 st
        · rw [if_neg hs2, if_neg hs2]
          cases u <;> simp
    · rw [if_neg hg, if_neg hg]
      cases u <;> simp

theorem nextLexeme_shift (fuel : Nat) (u k : Bool) (s : Input) (st : List Int) :
    nextLexeme fuel u k { s with stack := st } =
      (nextLexeme fuel u k s).map (fun rs => (rs.1, { rs.2 with stack := st })) := by
  cases hs : scanExisting s.tokens k s.lexemes s.lex_position with
  | inl jl => cases u <;> simp [nextLexeme, hs]
  | inr p => simp [nextLexeme, hs, tokLoop_shift fuel u k p s st]

theorem updateLast_shift (s : Input) (st : List Int) (res : Option Lexeme) :
    updateLast { s with stack := st } res =
      { updateLast s res with stack := st } := by
  cases hll : s.last_lexeme with
  | none => simp [updateLast, hll]
  | some ll =>
    cases res with
    | none => simp [updateLast, hll]
    | some r =>
      by_cases hc : ll.index < r.index <;> simp [updateLast, hll, hc]

theorem peek_shift (fuel : Nat) (s : Input) (st : List Int) :
    peek fuel { s with stack := st } =
      (peek fuel s).map (fun rs => (rs.1, { rs.2 with stack := st })) := by
  simp only [peek, nextLexeme_shift]
  cases nextLexeme fuel false true s with
  | none => rfl
  | some rs =>
    obtain ⟨r0, s0⟩ := rs
    cases r0 <;> simp [updateLast_shift]

theorem next_shift (fuel : Nat) (s : Input) (st : List Int) :
    next fuel { s with stack := st } =
      (next fuel s).map (fun rs => (rs.1, { rs.2 with stack := st })) := by
  simp only [next, nextLexeme_shift]
  cases nextLexeme fuel true true s with
  | none => rfl
  | some rs =>
    obtain ⟨r0, s0⟩ := rs
    cases r0 <;> simp [updateLast_shift]

theorem tokExec_shift (fuel i : Nat) (s : Input) (st : List Int) :
    tokExec fuel i { s with stack := st } =
      (tokExec fuel i s).map (fun rs => (rs.1, { rs.2 with stack := st })) := by
  have hset : ∀ (x : Input) (b : Bool),
      Pegp.setSkip { x with stack := st } i b =
        { Pegp.setSkip x i b with stack := st } := fun _ _ => rfl
  unfold tokExec
  rw [show skipFlag ({ s with stack := st } : Input).tokens i =
    skipFlag s.tokens i from rfl]
  simp only [hset, peek_shift]
  cases peek fuel (Pegp.setSkip s i false) with
  | none => rfl
  | some rs1 =>
    obtain ⟨r1, s2⟩ := rs1
    cases r1 with
    | illegal => rfl
    | eof => rfl
    | found l =>
      simp only [Option.map_some']
      by_cases hl : l.tok = i
      · rw [if_pos hl, if_pos hl]
        simp only [hset, next_shift]
        cases next fuel
            (Pegp.setSkip (Pegp.setSkip s2 i (skipFlag s.tokens i)) i false) with
        | none => rfl
        | some rs2 =>
          obtain ⟨r2, s4⟩ := rs2
          cases r2 <;> rfl
      · rw [if_neg hl, if_neg hl]
        rfl

theorem rollback_cons {s0 : Input} {p : Int} {t : List Int}
    (h : s0.stack = p :: t) :
    rollback s0 = { s0 with lex_position := p, stack := t } := by
  simp [rollback, h]

theorem commit_cons {s0 : Input} {p : Int} {t : List Int}
    (h : s0.stack = p :: t) :
    commit s0 = { s0 with stack := t } := by
  simp [commit, h]

theorem tokExec_stack (fuel i : Nat) (s : Input) (out : Out) (s' : Input)
    (h : tokExec fuel i s = some (out, s')) : s'.stack = s.stack := by
  unfold tokExec at h
  cases h1 : peek fuel (setSkip s i false) with
  | none => rw [h1] at h; simp at h
  | some rs1 =>
    obtain ⟨r1, s2⟩ := rs1
    have hst1 : s2.stack = s.stack := (peek_lexEvo _ _ _ _ h1).2.1
    rw [h1] at h
    cases r1 with
    | illegal =>
      simp only [Option.some_inj, Prod.mk.injEq] at h
      rw [← h.2]; exact hst1
    | eof =>
      simp only [Option.some_inj, Prod.mk.injEq] at h
      rw [← h.2]; exact hst1
    | found l =>
      simp only at h
      by_cases hl : l.tok = i
      · rw [if_pos hl] at h
        cases h2 : next fuel (setSkip (setSkip s2 i (skipFlag s.tokens i)) i false) with
        | none => rw [h2] at h; simp at h
        | some rs2 =>
          obtain ⟨r2, s4⟩ := rs2
          have hst2 : s4.stack = s2.stack := (next_lexEvo _ _ _ _ h2).2.1
          rw [h2] at h
          cases r2 <;> simp only [Option.some_inj, Prod.mk.injEq] at h <;>
            rw [← h.2] <;> simp [Pegp.setSkip, hst2, hst1]
      · rw [if_neg hl] at h
        simp only [Option.some_inj, Prod.mk.injEq] at h
        rw [← h.2]; exact hst1

/-- Frame property of a rule-indexed executor: on every outcome other than a
thrown exception, the save stack is exactly as on entry, and the execution
result does not depend on the stack contents. -/
def FrameR (execf : Rule → Input → Option (Out × Input)) : Prop :=
  ∀ r s out s', execf r s = some (out, s') → out ≠ .illegal →
    s'.stack = s.stack ∧
    ∀ st, execf r { s with stack := st } = some (out, { s' with stack := st })

theorem seqLoop_frame {execf : Rule → Input → Option (Out × Input)}
    (hf : FrameR execf) :
    ∀ (rs : List Rule) (acc : List Val) (s : Input) (out : Out) (s' : Input),
    seqLoop execf rs acc s = some (out, s') → out ≠ .illegal →
    s'.stack = s.stack ∧
    ∀ st, seqLoop execf rs acc { s with stack := st } =
      some (out, { s' with stack := st }) := by
  intro rs
  induction rs with
  | nil =>
    intro acc s out s' h hno
    simp only [seqLoop, Option.some_inj, Prod.mk.injEq] at h
    obtain ⟨h1, h2⟩ := h
    subst h1 h2
    exact ⟨rfl, fun st => rfl⟩
  | cons r rest ih =>
    intro acc s out s' h hno
    simp only [seqLoop] at h
    cases h0 : execf r s with
    | none => rw [h0] at h; simp at h
    | some rs0 =>
      obtain ⟨o0, s0⟩ := rs0
      rw [h0] at h
      cases o0 with
      | illegal =>
        simp only [Option.some_inj, Prod.mk.injEq] at h
        exact absurd h.1.symm hno
      | noMatch =>
        simp only [Option.some_inj, Prod.mk.injEq] at h
        obtain ⟨h1, h2⟩ := h
        subst h1 h2
        obtain ⟨hb, hs⟩ := hf r s _ _ h0 (by simp)
        refine ⟨hb, fun st => ?_⟩
        simp only [seqLoop, hs st]
      | ok v =>
        obtain ⟨hb, hs⟩ := hf r s _ _ h0 (by simp)
        obtain ⟨hb2, hs2⟩ := ih (acc ++ [v]) s0 out s' h hno
        refine ⟨hb2.trans hb, fun st => ?_⟩
        simp only [seqLoop, hs st, hs2 st]

theorem eitherLoop_frame {execf : Rule → Input → Option (Out × Input)}
    (hf : FrameR execf) :
    ∀ (rs : List Rule) (s : Input) (out : Out) (s' : Input),
    eitherLoop execf rs s = some (out, s') → out ≠ .illegal →
    s'.stack = s.stack ∧
    ∀ st, eitherLoop execf rs { s with stack := st } =
      some (out, { s' with stack := st }) := by
  intro rs
  induction rs with
  | nil =>
    intro s out s' h hno
    simp only [eitherLoop, Option.some_inj, Prod.mk.injEq] at h
    obtain ⟨h1, h2⟩ := h
    subst h1 h2
    exact ⟨rfl, fun st => rfl⟩
  | cons r rest ih =>
    intro s out s' h hno
    simp only [eitherLoop] at h
    cases h0 : execf r s with
    | none => rw [h0] at h; simp at h
    | some rs0 =>
      obtain ⟨o0, s0⟩ := rs0
      rw [h0] at h
      cases o0 with
      | illegal =>
        simp only [Option.some_inj, Prod.mk.injEq] at h
        exact absurd h.1.symm hno
      | ok v =>
        simp only [Option.some_inj, Prod.mk.injEq] at h
        obtain ⟨h1, h2⟩ := h
        subst h1 h2
        obtain ⟨hb, hs⟩ := hf r s _ _ h0 (by simp)
        refine ⟨hb, fun st => ?_⟩
        simp only [eitherLoop, hs st]
      | noMatch =>
        obtain ⟨hb, hs⟩ := hf r s _ _ h0 (by simp)
        obtain ⟨hb2, hs2⟩ := ih s0 out s' h hno
        refine ⟨hb2.trans hb, fun st => ?_⟩
        simp only [eitherLoop, hs st, hs2 st]

theorem zomLoop_frame {execf : Input → Option (Out × Input)}
    (hf : ∀ s out s', execf s = some (out, s') → out ≠ .illegal →
      s'.stack = s.stack ∧
      ∀ st, execf { s with stack := st } = some (out, { s' with stack := st })) :
    ∀ (k : Nat) (acc : List Val) (s : Input) (out : Out) (s' : Input),
    zomLoop execf k acc s = some (out, s') → out ≠ .illegal →
    s'.stack = s.stack ∧
    ∀ st, zomLoop execf k acc { s with stack := st } =
      some (out, { s' with stack := st }) := by
  intro k
  induction k with
  | zero => intro acc s out s' h hno; simp [zomLoop] at h
  | succ k ih =>
    intro acc s out s' h hno
    simp only [zomLoop] at h
    cases h0 : execf s with
    | none => rw [h0] at h; simp at h
    | some rs0 =>
      obtain ⟨o0, s0⟩ := rs0
      rw [h0] at h
      cases o0 with
      | illegal =>
        simp only [Option.some_inj, Prod.mk.injEq] at h
        exact absurd h.1.symm hno
      | noMatch =>
        simp only [Option.some_inj, Prod.mk.injEq] at h
        obtain ⟨h1, h2⟩ := h
        subst h1 h2
        obtain ⟨hb, hs⟩ := hf s _ _ h0 (by simp)
        refine ⟨hb, fun st => ?_⟩
        simp only [zomLoop, hs st]
      | ok v =>
        simp only at h
        obtain ⟨hb, hs⟩ := hf s _ _ h0 (by simp)
        by_cases ht : truthy v = true
        · rw [if_pos ht] at h
          obtain ⟨hb2, hs2⟩ := ih (acc ++ [v]) s0 out s' h hno
          refine ⟨hb2.trans hb, fun st => ?_⟩
          simp only [zomLoop, hs st]
          rw [if_pos ht]
          exact hs2 st
        · rw [if_neg ht] at h
          simp only [Option.some_inj, Prod.mk.injEq] at h
          obtain ⟨h1, h2⟩ := h
          subst h1 h2
          refine ⟨hb, fun st => ?_⟩
          simp only [zomLoop, hs st]
          rw [if_neg ht]

theorem protect_frame {body : Input → Option (Out × Input)}
    (hb : ∀ s out s', body s = some (out, s') → out ≠ .illegal →
      s'.stack = s.stack ∧
      ∀ st, body { s with stack := st } = some (out, { s' with stack := st })) :
    ∀ (s : Input) (out : Out) (s' : Input),
    protect body s = some (out, s') → out ≠ .illegal →
    s'.stack = s.stack ∧
    ∀ st, protect body { s with stack := st } =
      some (out, { s' with stack := st }) := by
  intro s out s' h hno
  unfold protect at h
  cases hb0 : body (Pegp.save s) with
  | none => rw [hb0] at h; simp at h
  | some rs0 =>
    obtain ⟨o0, s0⟩ := rs0
    rw [hb0] at h
    cases o0 with
    | illegal =>
      simp only [Option.some_inj, Prod.mk.injEq] at h
      exact absurd h.1.symm hno
    | noMatch =>
      simp only [Option.some_inj, Prod.mk.injEq] at h
      obtain ⟨h1, h2⟩ := h
      subst h1 h2
      obtain ⟨hbs, hsh⟩ := hb _ _ _ hb0 (by simp)
      have hst : s0.stack = s.lex_position :: s.stack := hbs
      refine ⟨by rw [rollback_cons hst], fun st => ?_⟩
      have hsave : Pegp.save { s with stack := st } =
          { Pegp.save s with stack := s.lex_position :: st } := rfl
      unfold protect
      rw [hsave, hsh (s.lex_position :: st)]
      simp only
      rw [rollback_cons (show ({ s0 with stack := s.lex_position :: st } :
        Input).stack = s.lex_position :: st from rfl),
        rollback_cons hst]
    | ok v =>
      simp only [Option.some_inj, Prod.mk.injEq] at h
      obtain ⟨h1, h2⟩ := h
      subst h1 h2
      obtain ⟨hbs, hsh⟩ := hb _ _ _ hb0 (by simp)
      have hst : s0.stack = s.lex_position :: s.stack := hbs
      refine ⟨by rw [commit_cons hst], fun st => ?_⟩
      have hsave : Pegp.save { s with stack := st } =
          { Pegp.save s with stack := s.lex_position :: st } := rfl
      unfold protect
      rw [hsave, hsh (s.lex_position :: st)]
      simp only
      rw [commit_cons (show ({ s0 with stack := s.lex_position :: st } :
        Input).stack = s.lex_position :: st from rfl),
        commit_cons hst]

/-- Second global pass over `exec`: on any outcome other than a thrown
exception the save stack is restored exactly (`save` count balances
`commit` plus `rollback`), and execution does not depend on the stack
contents at entry. -/
theorem exec_frame : ∀ (fuel : Nat) (env : List Rule),
    FrameR (exec fuel env) := by
  intro fuel
  induction fuel with
  | zero => intro env r s out s' h; simp [exec] at h
  | succ fuel ih =>
    intro env r s out s' h hno
    cases r with
    | tok i =>
      simp only [exec] at h ⊢
      refine ⟨tokExec_stack (fuel+1) i s out s' h, fun st => ?_⟩
      rw [tokExec_shift, h]
      rfl
    | any =>
      simp only [exec] at h ⊢
      cases h1 : next (fuel+1) s with
      | none => rw [h1] at h; simp at h
      | some rs1 =>
        obtain ⟨r1, s1⟩ := rs1
        have hst := (next_lexEvo _ _ _ _ h1).2.1
        rw [h1] at h
        cases r1 with
        | found l =>
          simp only [Option.some_inj, Prod.mk.injEq] at h
          obtain ⟨hh1, hh2⟩ := h
          subst hh1 hh2
          refine ⟨hst, fun st => ?_⟩
          rw [next_shift, h1]
          rfl
        | eof =>
          simp only [Option.some_inj, Prod.mk.injEq] at h
          obtain ⟨hh1, hh2⟩ := h
          subst hh1 hh2
          refine ⟨hst, fun st => ?_⟩
          rw [next_shift, h1]
          rfl
        | illegal =>
          simp only [Option.some_inj, Prod.mk.injEq] at h
          exact absurd h.1.symm hno
    | seq rs =>
      simp only [exec] at h ⊢
      exact protect_frame (fun s0 o0 s0' h0 hno0 =>
        seqLoop_frame (ih env) rs [] s0 o0 s0' h0 hno0) s out s' h hno
    | either rs =>
      simp only [exec] at h ⊢
      exact protect_frame (fun s0 o0 s0' h0 hno0 =>
        eitherLoop_frame (ih env) rs s0 o0 s0' h0 hno0) s out s' h hno
    | zeroOrMore r0 =>
      simp only [exec] at h ⊢
      exact protect_frame (fun s0 o0 s0' h0 hno0 =>
        zomLoop_frame (fun s1 o1 s1' h1 hno1 => ih env r0 s1 o1 s1' h1 hno1)
          fuel [] s0 o0 s0' h0 hno0) s out s' h hno
    | opt r0 =>
      simp only [exec] at h ⊢
      refine protect_frame (fun s0 o0 s0' h0 hno0 => ?_) s out s' h hno
      cases h1 : exec fuel env r0 s0 with
      | none => rw [h1] at h0; simp at h0
      | some rs1 =>
        obtain ⟨o1, s1⟩ := rs1
        rw [h1] at h0
        cases o1 with
        | illegal =>
          simp only [Option.some_inj, Prod.mk.injEq] at h0
          exact absurd h0.1.symm hno0
        | noMatch =>
          simp only [Option.some_inj, Prod.mk.injEq] at h0
          obtain ⟨hh1, hh2⟩ := h0
          subst hh1 hh2
          obtain ⟨hb, hs⟩ := ih env r0 s0 _ _ h1 (by simp)
          refine ⟨hb, fun st => ?_⟩
          rw [hs st]
        | ok v =>
          simp only [Option.some_inj, Prod.mk.injEq] at h0
          obtain ⟨hh1, hh2⟩ := h0
          subst hh1 hh2
          obtain ⟨hb, hs⟩ := ih env r0 s0 _ _ h1 (by simp)
          refine ⟨hb, fun st => ?_⟩
          rw [hs st]
    | tf r0 fn =>
      simp only [exec] at h ⊢
      refine protect_frame (fun s0 o0 s0' h0 hno0 => ?_) s out s' h hno
      cases h1 : exec fuel env r0 s0 with
      | none => rw [h1] at h0; simp at h0
      | some rs1 =>
        obtain ⟨o1, s1⟩ := rs1
        rw [h1] at h0
        cases o1 with
        | illegal =>
          simp only [Option.some_inj, Prod.mk.injEq] at h0
          exact absurd h0.1.symm hno0
        | noMatch =>
          simp only [Option.some_inj, Prod.mk.injEq] at h0
          obtain ⟨hh1, hh2⟩ := h0
          subst hh1 hh2
          obtain ⟨hb, hs⟩ := ih env r0 s0 _ _ h1 (by simp)
          refine ⟨hb, fun st => ?_⟩
          rw [hs st]
        | ok v =>
          simp only at h0
          obtain ⟨hb, hs⟩ := ih env r0 s0 _ _ h1 (by simp)
          cases hfn : fn v with
          | some u =>
            rw [hfn] at h0
            simp only [Option.some_inj, Prod.mk.injEq] at h0
            obtain ⟨hh1, hh2⟩ := h0
            subst hh1 hh2
            refine ⟨hb, fun st => ?_⟩
            rw [hs st]
            simp only [hfn]
          | none =>
            rw [hfn] at h0
            simp only [Option.some_inj, Prod.mk.injEq] at h0
            obtain ⟨hh1, hh2⟩ := h0
            subst hh1 hh2
            refine ⟨hb, fun st => ?_⟩
            rw [hs st]
            simp only [hfn]
    | lookAhead r0 =>
      simp only [exec] at h ⊢
      cases h1 : exec fuel env r0 (Pegp.save s) with
      | none => rw [h1] at h; simp at h
      | some rs1 =>
        obtain ⟨o1, s1⟩ := rs1
        rw [h1] at h
        cases o1 with
        | illegal =>
          simp only [Option.some_inj, Prod.mk.injEq] at h
          exact absurd h.1.symm hno
        | noMatch =>
          simp only [Option.some_inj, Prod.mk.injEq] at h
          obtain ⟨hh1, hh2⟩ := h
          subst hh1 hh2
          obtain ⟨hb, hs⟩ := ih env r0 _ _ _ h1 (by simp)
          have hst : s1.stack = s.lex_position :: s.stack := hb
          refine ⟨by rw [rollback_cons hst], fun st => ?_⟩
          have hsave : Pegp.save { s with stack := st } =
              { Pegp.save s with stack := s.lex_position :: st } := rfl
          rw [hsave, hs (s.lex_position :: st)]
          simp only
          rw [rollback_cons (show ({ s1 with stack := s.lex_position :: st } :
            Input).stack = s.lex_position :: st from rfl), rollback_cons hst]
        | ok v =>
          simp only [Option.some_inj, Prod.mk.injEq] at h
          obtain ⟨hh1, hh2⟩ := h
          subst hh1 hh2
          obtain ⟨hb, hs⟩ := ih env r0 _ _ _ h1 (by simp)
          have hst : s1.stack = s.lex_position :: s.stack := hb
          refine ⟨by rw [rollback_cons hst], fun st => ?_⟩
          have hsave : Pegp.save { s with stack := st } =
              { Pegp.save s with stack := s.lex_position :: st } := rfl
          rw [hsave, hs (s.lex_position :: st)]
          simp only
          rw [rollback_cons (show ({ s1 with stack := s.lex_position :: st } :
            Input).stack = s.lex_position :: st from rfl), rollback_cons hst]
    | not r0 =>
      simp only [exec] at h ⊢
      cases h1 : exec fuel env r0 (Pegp.save s) with
      | none => rw [h1] at h; simp at h
      | some rs1 =>
        obtain ⟨o1, s1⟩ := rs1
        rw [h1] at h
        cases o1 with
        | illegal =>
          simp only [Option.some_inj, Prod.mk.injEq] at h
          exact absurd h.1.symm hno
        | noMatch =>
          simp only [Option.some_inj, Prod.mk.injEq] at h
          obtain ⟨hh1, hh2⟩ := h
          subst hh1 hh2
          obtain ⟨hb, hs⟩ := ih env r0 _ _ _ h1 (by simp)
          have hst : s1.stack = s.lex_position :: s.stack := hb
          refine ⟨by rw [rollback_cons hst], fun st => ?_⟩
          have hsave : Pegp.save { s with stack := st } =
              { Pegp.save s with stack := s.lex_position :: st } := rfl
          rw [hsave, hs (s.lex_position :: st)]
          simp only
          rw [rollback_cons (show ({ s1 with stack := s.lex_position :: st } :
            Input).stack = s.lex_position :: st from rfl), rollback_cons hst]
        | ok v =>
          simp only [Option.some_inj, Prod.mk.injEq] at h
          obtain ⟨hh1, hh2⟩ := h
          subst hh1 hh2
          obtain ⟨hb, hs⟩ := ih env r0 _ _ _ h1 (by simp)
          have hst : s1.stack = s.lex_position :: s.stack := hb
          refine ⟨by rw [rollback_cons hst], fun st => ?_⟩
          have hsave : Pegp.save { s with stack := st } =
              { Pegp.save s with stack := s.lex_position :: st } := rfl
          rw [hsave, hs (s.lex_position :: st)]
          simp only
          rw [rollback_cons (show ({ s1 with stack := s.lex_position :: st } :
            Input).stack = s.lex_position :: st from rfl), rollback_cons hst]
    | ref i =>
      simp only [exec] at h ⊢
      cases hi : env.get? i with
      | none =>
        rw [hi] at h
        simp only [Option.some_inj, Prod.mk.injEq] at h
        exact absurd h.1.symm hno
      | some r0 =>
        rw [hi] at h
        obtain ⟨hb, hs⟩ := ih env r0 s out s' h hno
        exact ⟨hb, fun st => hs st⟩

/-! Coherence of `peek` followed by `next`: when `peek` finds a lexeme, the
immediately following `next` (on unchanged flags) returns the same lexeme.
This underlies `TokenRule.exec`, which peeks and then consumes with
`l.next()!`. -/

theorem findNonSkip_none {toks : List TokenRule} {skip : Bool}
    {ls : List Lexeme} (h : findNonSkip toks skip ls = none) :
    ∀ lx ∈ ls, (skip && skipFlag toks lx.tok) = true := by
  induction ls with
  | nil => intro lx hlx; simp at hlx
  | cons l rest ih =>
    intro lx hlx
    simp only [findNonSkip] at h
    by_cases hf : (skip && skipFlag toks l.tok) = true
    · rw [if_pos hf] at h
      rcases List.mem_cons.mp hlx with hl | hl
      · rw [hl]; exact hf
      · exact ih (by simpa using h) lx hl
    · rw [if_neg hf] at h
      simp at h

theorem findNonSkip_spec {toks : List TokenRule} {skip : Bool} :
    ∀ {ls : List Lexeme} {off : Nat},
    findNonSkip toks skip ls = some off →
    ∃ l, ls.get? off = some l ∧ (skip && skipFlag toks l.tok) = false := by
  intro ls
  induction ls with
  | nil => intro off h; simp [findNonSkip] at h
  | cons l rest ih =>
    intro off h
    simp only [findNonSkip] at h
    by_cases hf : (skip && skipFlag toks l.tok) = true
    · rw [if_pos hf] at h
      cases h2 : findNonSkip toks skip rest with
      | none => rw [h2] at h; simp at h
      | some off2 =>
        rw [h2] at h
        simp only [Option.map_some', Option.some_inj] at h
        obtain ⟨l2, hg, hfl⟩ := ih h2
        exact ⟨l2, by rw [← h]; simpa using hg, hfl⟩
    · rw [if_neg hf] at h
      simp only [Option.some_inj] at h
      exact ⟨l, by rw [← h]; rfl, by simpa using hf⟩

theorem findNonSkip_append_allskip {toks : List TokenRule}
    {a : List Lexeme} (b : List Lexeme)
    (ha : ∀ lx ∈ a, skipFlag toks lx.tok = true) :
    findNonSkip toks true (a ++ b) =
      (findNonSkip toks true b).map (· + a.length) := by
  induction a with
  | nil => simp
  | cons l rest ih =>
    have hl : skipFlag toks l.tok = true := ha l (by simp)
    simp only [List.cons_append, findNonSkip, hl, Bool.and_self, if_pos,
      Bool.true_and, if_true, List.append_eq]
    rw [ih (fun lx hlx => ha lx (by simp [hlx]))]
    cases findNonSkip toks true b <;> simp +arith [List.length_cons]

/-- What a `tokLoop` call that returns a lexeme (with `update = false`,
`skip = true`) did: it appended some skippable lexemes and then the returned
non-skippable one, and touched neither the flags nor `lex_position`. -/
theorem tokLoop_found_struct : ∀ (fuel : Nat) (p : Int) (x : Input)
    (l : Lexeme) (s1 : Input),
    tokLoop fuel false true p x = some (.found l, s1) →
    ∃ mids, s1.lexemes = x.lexemes ++ mids ++ [l] ∧
      (∀ m ∈ mids, skipFlag x.tokens m.tok = true) ∧
      skipFlag x.tokens l.tok = false ∧
      s1.tokens = x.tokens ∧ s1.lex_position = x.lex_position := by
  intro fuel
  induction fuel with
  | zero => intro p x l s1 h; simp [tokLoop] at h
  | succ fuel ih =>
    intro p x l s1 h
    simp only [tokLoop] at h
    by_cases hg : x.last_index < x.string.length
    · rw [if_pos hg] at h
      cases hm : firstTokenMatch x.tokens x.string x.last_index with
      | none => rw [hm] at h; simp at h
      | some tl =>
        rw [hm] at h
        simp only at h
        by_cases hs : (true && skipFlag x.tokens tl.1) = true
        · rw [if_pos hs] at h
          obtain ⟨mids, h1, h2, h3, h4, h5⟩ := ih (p+1) _ l s1 h
          refine ⟨(createLexeme x tl.1 tl.2).1 :: mids, ?_, ?_, ?_, ?_, ?_⟩
          · rw [h1]; simp [createLexeme]
          · intro m hm2
            rcases List.mem_cons.mp hm2 with hm3 | hm3
            · rw [hm3]
              have : (createLexeme x tl.1 tl.2).1.tok = tl.1 := rfl
              rw [this]
              simpa using hs
            · have := h2 m hm3
              rwa [show (createLexeme x tl.1 tl.2).2.tokens = x.tokens
                from rfl] at this
          · rwa [show (createLexeme x tl.1 tl.2).2.tokens = x.tokens
              from rfl] at h3
          · rwa [show (createLexeme x tl.1 tl.2).2.tokens = x.tokens
              from rfl] at h4
          · rwa [show (createLexeme x tl.1 tl.2).2.lex_position =
              x.lex_position from rfl] at h5
        · rw [if_neg hs] at h
          simp only [Bool.false_eq_true, if_false, Option.some_inj,
            Prod.mk.injEq, LexRes.found.injEq] at h
          obtain ⟨hh1, hh2⟩ := h
          refine ⟨[], ?_, by simp, ?_, ?_, ?_⟩
          · rw [← hh2, ← hh1]; simp [createLexeme]
          · rw [← hh1]
            have : (createLexeme x tl.1 tl.2).1.tok = tl.1 := rfl
            rw [this]
            simpa using hs
          · rw [← hh2]; rfl
          · rw [← hh2]; rfl
    · rw [if_neg hg] at h
      simp at h

theorem scanExisting_inr_allskip {toks : List TokenRule} {ls : List Lexeme}
    {pos p : Int} (h : scanExisting toks true ls pos = Sum.inr p) :
    ∀ lx ∈ ls.drop (pos + 1).toNat, skipFlag toks lx.tok = true := by
  unfold scanExisting at h
  by_cases hc : pos < (ls.length : Int) - 1
  · rw [if_pos hc] at h
    cases hfn : findNonSkip toks true (ls.drop (pos + 1).toNat) with
    | none =>
      intro lx hlx
      simpa using findNonSkip_none hfn lx hlx
    | some off =>
      rw [hfn] at h
      obtain ⟨l2, hg, _⟩ := findNonSkip_spec hfn
      have hg2 : ls[(pos + 1).toNat + off]? = some l2 := by
        rw [← List.getElem?_drop]
        simpa [List.get?_eq_getElem?] using hg
      simp [hg2] at h
  · have hnil : ls.drop (pos + 1).toNat = [] := by
      apply List.drop_eq_nil_of_le
      omega
    rw [hnil]
    intro lx hlx
    simp at hlx

theorem updateLast_core (s : Input) (res : Option Lexeme) :
    (updateLast s res).tokens = s.tokens ∧
    (updateLast s res).lexemes = s.lexemes ∧
    (updateLast s res).lex_position = s.lex_position := by
  cases hll : s.last_lexeme with
  | none => simp [updateLast, hll]
  | some ll =>
    cases res with
    | none => simp [updateLast, hll]
    | some r =>
      by_cases hc : ll.index < r.index <;> simp [updateLast, hll, hc]

theorem scanExisting_appended_found {toks : List TokenRule}
    {xlex mids : List Lexeme} {l : Lexeme} {pos : Int}
    (hpos : pos < (xlex.length : Int))
    (hskip : ∀ lx ∈ xlex.drop (pos + 1).toNat, skipFlag toks lx.tok = true)
    (hmids : ∀ m ∈ mids, skipFlag toks m.tok = true)
    (hl : skipFlag toks l.tok = false) :
    ∃ j, scanExisting toks true (xlex ++ mids ++ [l]) pos = Sum.inl (j, l) := by
  unfold scanExisting
  have hlen : pos < ((xlex ++ mids ++ [l]).length : Int) - 1 := by
    simp only [List.length_append, List.length_cons, List.length_nil]
    push_cast
    omega
  rw [if_pos hlen]
  have hstartle : (pos + 1).toNat ≤ xlex.length := by omega
  have hdrop : (xlex ++ mids ++ [l]).drop (pos + 1).toNat =
      (xlex.drop (pos + 1).toNat ++ mids) ++ [l] := by
    rw [List.drop_append_eq_append_drop, List.drop_append_eq_append_drop,
      show (pos + 1).toNat - xlex.length = 0 from by omega,
      show (pos + 1).toNat - (xlex ++ mids).length = 0 from by
        simp only [List.length_append]; omega]
    simp [List.append_assoc]
  rw [hdrop]
  have hallA : ∀ lx ∈ xlex.drop (pos + 1).toNat ++ mids,
      skipFlag toks lx.tok = true := by
    intro lx hlx
    rcases List.mem_append.mp hlx with h1 | h1
    · exact hskip lx h1
    · exact hmids lx h1
  rw [findNonSkip_append_allskip [l] hallA,
    show findNonSkip toks true [l] = some 0 from by simp [findNonSkip, hl]]
  simp only [Option.map_some', Nat.zero_add]
  rw [List.get?_append_right (le_refl _), Nat.sub_self]
  exact ⟨_, rfl⟩

/-- If `peek` returned a lexeme, the `next` that follows it (`TokenRule.exec`
does exactly this) returns the same lexeme.  The position hypothesis holds
for every reachable state (`lex_position` points at a consumed lexeme or is
−1). -/
theorem peek_next_coherence (fuel : Nat) (x : Input) (l : Lexeme) (s2 : Input)
    (hpos : x.lex_position < (x.lexemes.length : Int))
    (h : peek fuel x = some (.found l, s2)) :
    ∃ s3, next fuel s2 = some (.found l, s3) := by
  simp only [peek] at h
  cases hn : nextLexeme fuel false true x with
  | none => rw [hn] at h; simp at h
  | some rs =>
    obtain ⟨r0, s1⟩ := rs
    rw [hn] at h
    cases r0 with
    | eof => simp at h
    | illegal => simp at h
    | found l0 =>
      simp only [Option.some_inj, Prod.mk.injEq, LexRes.found.injEq] at h
      obtain ⟨hl0, hs2⟩ := h
      rw [hl0] at hn hs2
      subst hs2
      simp only [nextLexeme] at hn
      obtain ⟨ht2, hl2, hp2⟩ := updateLast_core s1 (some l)
      cases hscan : scanExisting x.tokens true x.lexemes x.lex_position with
      | inl jl =>
        rw [hscan] at hn
        simp only [Bool.false_eq_true, if_false, Option.some_inj,
          Prod.mk.injEq, LexRes.found.injEq] at hn
        obtain ⟨hjl, hs1⟩ := hn
        subst hs1
        have hnl : nextLexeme fuel true true (updateLast x (some l)) =
            some (.found l, { updateLast x (some l) with lex_position := jl.1 }) := by
          simp only [nextLexeme, ht2, hl2, hp2, hscan, hjl, if_true]
        exact ⟨_, by simp only [next, hnl]; rfl⟩
      | inr p =>
        rw [hscan] at hn
        obtain ⟨mids, hml, hmskip, hlns, htk, hlp⟩ :=
          tokLoop_found_struct fuel p x l s1 hn
        have hsuf := scanExisting_inr_allskip hscan
        obtain ⟨j, hfound⟩ := scanExisting_appended_found hpos hsuf hmskip hlns
        have hnl : nextLexeme fuel true true (updateLast s1 (some l)) =
            some (.found l, { updateLast s1 (some l) with lex_position := j }) := by
          simp only [nextLexeme, ht2, hl2, hp2, htk, hml, hlp, hfound, if_true]
        exact ⟨_, by simp only [next, hnl]; rfl⟩

/-! Remaining helper lemmas for the claim theorems. -/

/-- After a successful `peek`, `last_lexeme` is set. -/
theorem updateLast_some (s1 : Input) (l : Lexeme) :
    ∃ lx, (updateLast s1 (some l)).last_lexeme = some lx := by
  cases hll : s1.last_lexeme with
  | none => exact ⟨l, by simp [updateLast, hll]⟩
  | some ll =>
    by_cases hc : ll.index < l.index
    · exact ⟨l, by simp [updateLast, hll, hc]⟩
    · exact ⟨ll, by simp [updateLast, hll, hc]⟩

theorem peek_found_last_some (fuel : Nat) (s : Input) (l : Lexeme)
    (s2 : Input) (h : peek fuel s = some (.found l, s2)) :
    ∃ lx, s2.last_lexeme = some lx := by
  simp only [peek] at h
  cases hn : nextLexeme fuel false true s with
  | none => rw [hn] at h; simp at h
  | some rs =>
    obtain ⟨r0, s1⟩ := rs
    rw [hn] at h
    cases r0 with
    | eof => simp at h
    | illegal => simp at h
    | found l0 =>
      simp only [Option.some_inj, Prod.mk.injEq, LexRes.found.injEq] at h
      rw [← h.2]
      exact updateLast_some s1 l0

/-- A `protect`-wrapped body whose inner execution is stack-balanced restores
`lex_position` exactly on a no-match. -/
theorem protect_noMatch_lexpos {body : Input → Option (Out × Input)}
    (hb : ∀ s out s', body s = some (out, s') → out ≠ .illegal →
      s'.stack = s.stack)
    (s : Input) (s' : Input) (h : protect body s = some (.noMatch, s')) :
    s'.lex_position = s.lex_position := by
  unfold protect at h
  cases hb0 : body (Pegp.save s) with
  | none => rw [hb0] at h; simp at h
  | some rs0 =>
    obtain ⟨o0, s0⟩ := rs0
    rw [hb0] at h
    cases o0 with
    | illegal => simp at h
    | ok v => simp at h
    | noMatch =>
      simp only [Option.some_inj, Prod.mk.injEq] at h
      rw [← h.2]
      have hst : s0.stack = s.lex_position :: s.stack := hb _ _ _ hb0 (by simp)
      rw [rollback_cons hst]

/-- All indices in a chain starting at `o` are at least `o`. -/
theorem chainB_le (o : Nat) (ls : List Lexeme) (h : chainB o ls = true) :
    ∀ l ∈ ls, o ≤ l.index := by
  induction ls generalizing o with
  | nil => intro l hl; simp at hl
  | cons l0 rest ih =>
    intro l hl
    simp only [chainB, Bool.and_eq_true, beq_iff_eq] at h
    rcases List.mem_cons.mp hl with h1 | h1
    · rw [h1, h.1]
    · exact le_trans (Nat.le_add_right o l0.text.length)
        (ih (o + l0.text.length) h.2 l h1)

theorem chainB_pairwise_le (o : Nat) (ls : List Lexeme)
    (h : chainB o ls = true) :
    (ls.map (·.index)).Pairwise (· ≤ ·) := by
  induction ls generalizing o with
  | nil => simp
  | cons l0 rest ih =>
    simp only [chainB, Bool.and_eq_true, beq_iff_eq] at h
    simp only [List.map_cons, List.pairwise_cons]
    refine ⟨?_, ih (o + l0.text.length) h.2⟩
    intro a ha
    obtain ⟨l, hl, hla⟩ := List.mem_map.mp ha
    rw [← hla, h.1]
    exact le_trans (Nat.le_add_right o l0.text.length)
      (chainB_le _ _ h.2 l hl)

theorem chainB_pairwise_lt (o : Nat) (ls : List Lexeme)
    (h : chainB o ls = true) (hne : allNE ls = true) :
    (ls.map (·.index)).Pairwise (· < ·) := by
  induction ls generalizing o with
  | nil => simp
  | cons l0 rest ih =>
    simp only [chainB, Bool.and_eq_true, beq_iff_eq] at h
    simp only [allNE, List.all_cons, Bool.and_eq_true] at hne
    simp only [List.map_cons, List.pairwise_cons]
    have hlen : 0 < l0.text.length := List.length_pos.mpr (by simpa using hne.1)
    constructor
    · intro a ha
      obtain ⟨l, hl, hla⟩ := List.mem_map.mp ha
      rw [← hla, h.1]
      exact lt_of_lt_of_le (by omega) (chainB_le _ _ h.2 l hl)
    · exact ih (o + l0.text.length) h.2 hne.2

/-- The adjacency equation: each lexeme's byte range ends where the next
one starts. -/
theorem chainB_adjacent (o : Nat) (ls : List Lexeme)
    (h : chainB o ls = true) :
    ∀ k, k + 1 < ls.length →
      (ls.getD k default).index + (ls.getD k default).text.length =
        (ls.getD (k + 1) default).index := by
  induction ls generalizing o with
  | nil => intro k hk; simp at hk
  | cons l0 rest ih =>
    intro k hk
    simp only [chainB, Bool.and_eq_true, beq_iff_eq] at h
    cases k with
    | zero =>
      simp only [List.length_cons] at hk
      cases rest with
      | nil => simp at hk
      | cons l1 rest2 =>
        simp only [chainB, Bool.and_eq_true, beq_iff_eq] at h
        simp only [List.getD_cons_zero, List.getD_cons_succ]
        rw [h.1, h.2.1]
    | succ k2 =>
      simp only [List.getD_cons_succ]
      exact ih (o + l0.text.length) h.2 k2 (by simpa using hk)

/-- Extract the chain from the invariant. -/
theorem invL_chain {ls : List Lexeme} {li : Nat} (h : invL ls li = true) :
    ∀ l0 rest, ls = l0 :: rest → chainB l0.index ls = true := by
  intro l0 rest hls
  subst hls
  simp only [invL, Bool.and_eq_true] at h
  exact h.1

/-! The ten claims. -/

/-- Claim C1, counterexample: the claim says that on no-match from the top
rule `parse` raises *ParseFailed*, in particular `parse("")` raises at 1:1,
and never returns the no-match sentinel.  In the code, `parse` of the empty
string with a top rule requiring a token returns the `NOMATCH` sentinel and
raises nothing. -/
theorem claim1_counterexample :
    parse 50 [tokA] [] (.tok 0) [] = some .retNomatch := by rfl

/-- Claim C1, amended: when the top rule's exec produces no-match, `parse`
throws an `unexpected` error citing the recorded furthest lexeme
(`last_lexeme`) if a non-skippable lexeme remains, but when the input yields
no further lexeme (in particular on the empty string) it returns the
no-match sentinel itself without raising any error. -/
theorem claim1_amended (fuel : Nat) (toks : List TokenRule) (env : List Rule)
    (top : Rule) (str : List Char) (s1 : Input)
    (h : topExec fuel env top toks str = some (.noMatch, s1)) :
    (∀ s2, peek fuel s1 = some (.eof, s2) →
      parse fuel toks env top str = some .retNomatch) ∧
    (∀ l s2, peek fuel s1 = some (.found l, s2) →
      ∃ lx, s2.last_lexeme = some lx ∧
        parse fuel toks env top str =
          some (.errUnexpected lx.line lx.column lx.text)) := by
  constructor
  · intro s2 hp
    simp only [parse, h, hp]
  · intro l s2 hp
    obtain ⟨lx, hlx⟩ := peek_found_last_some fuel s1 l s2 hp
    refine ⟨lx, hlx, ?_⟩
    simp only [parse, h, hp, hlx]
    rfl

/-- Claim C1, witness: the amended claim applied at a concrete grammar and
the empty string. -/
theorem claim1_witness :
    parse 50 [tokB] [] (.tok 0) [] = some .retNomatch :=
  (claim1_amended 50 [tokB] [] (.tok 0) []
    (stateOf (topExec 50 [] (.tok 0) [tokB] [])) (by rfl)).1
    (lexStateOf (peek 50 (stateOf (topExec 50 [] (.tok 0) [tokB] []))))
    (by rfl)

/-- Claim C2 (code bug): the spec requires `ZeroOrMore(r).exec` to detect an
iteration in which `r` matched without consuming input and stop, always
succeeding.  The code never compares `lex_position`: on the rule
`ZeroOrMore(LookAhead(tok))` over an input whose first token matches, the
loop runs forever — for every fuel value the execution fails to
terminate. -/
theorem claim2_loops_forever :
    ∀ fuel : Nat,
      exec fuel [] (.zeroOrMore (.lookAhead (.tok 0))) sA = none := by
  have hfix : ∀ g : Nat,
      exec (g + 2) [] (.lookAhead (.tok 0)) sA1 =
        some (.ok (.vlexeme lexA), sA1) := fun g => rfl
  have hsave : ∀ g : Nat,
      exec (g + 2) [] (.lookAhead (.tok 0)) (save sA) =
        some (.ok (.vlexeme lexA), sA1) := fun g => rfl
  have hzom : ∀ (k : Nat) (acc : List Val) (g : Nat),
      zomLoop (fun s' => exec (g + 2) [] (.lookAhead (.tok 0)) s')
        k acc sA1 = none := by
    intro k
    induction k with
    | zero => intro acc g; rfl
    | succ k ih =>
      intro acc g
      simp only [zomLoop, hfix g, truthy, if_true]
      exact ih _ g
  intro fuel
  match fuel with
  | 0 => rfl
  | 1 => rfl
  | 2 => rfl
  | (g + 3) =>
    have hstep : exec (g + 3) [] (.zeroOrMore (.lookAhead (.tok 0))) sA =
        protect (fun s0 =>
          zomLoop (fun s' => exec (g + 2) [] (.lookAhead (.tok 0)) s')
            (g + 2) [] s0) sA := rfl
    have h1 : zomLoop (fun s' => exec (g + 2) [] (.lookAhead (.tok 0)) s')
        ((g + 1) + 1) [] (Pegp.save sA) = none := by
      simp only [zomLoop, hsave g, truthy, if_true]
      exact hzom (g + 1) _ g
    have h2 : zomLoop (fun s' => exec (g + 2) [] (.lookAhead (.tok 0)) s')
        (g + 2) [] (Pegp.save sA) = none := h1
    rw [hstep]
    unfold protect
    simp only [h2]

/-- Claim C5 (code bug): the spec says the lexer rejects zero-length token
matches (so every lexeme has non-empty text), to prevent infinite loops.
`nextLexeme` has no such check: with a skippable zero-length-matching rule
its tokenising loop runs forever (fails for every fuel), and with a
non-skippable one it creates and returns a `Lexeme` whose text is empty. -/
theorem claim5_zero_length_accepted :
    (∀ (fuel : Nat) (p : Int) (s : Input), s.tokens = [tokEmptySkip] →
      s.last_index < s.string.length →
      tokLoop fuel true true p s = none) ∧
    outOf (exec 10 [] .any (feed (mkInput [tokEmpty]) ('b' :: []))) =
      some (.ok (.vlexeme ⟨[], 0, 0, 1, 1⟩)) := by
  constructor
  · intro fuel
    induction fuel with
    | zero => intro p s h1 h2; rfl
    | succ fuel ih =>
      intro p s h1 h2
      simp only [tokLoop, if_pos h2, h1]
      rw [show ∀ (str : List Char) (i : Nat),
        firstTokenMatch [tokEmptySkip] str i = some (0, 0) from
        fun _ _ => rfl]
      simp only [skipFlag, tokEmptySkip, List.get?, Option.map_some',
        Option.getD_some, Bool.and_self, if_true]
      exact ih (p + 1) (createLexeme s 0 0).2
        (by rw [show (createLexeme s 0 0).2.tokens = s.tokens from rfl, h1])
        (by rw [show (createLexeme s 0 0).2.last_index = s.last_index
                  from rfl,
                show (createLexeme s 0 0).2.string = s.string from rfl]
            exact h2)
  · rfl

/-- Claim C3, counterexample: `AnyRule.exec` is not wrapped in the
save/rollback decorator; at end of input with a trailing skippable lexeme it
returns no-match with `lex_position` advanced from −1 to 0. -/
theorem claim3_counterexample :
    (feed (mkInput [tokSp]) (' ' :: [])).lex_position = -1 ∧
    outOf (exec 10 [] .any (feed (mkInput [tokSp]) (' ' :: []))) =
      some .noMatch ∧
    (stateOf (exec 10 [] .any
      (feed (mkInput [tokSp]) (' ' :: [])))).lex_position = 0 :=
  ⟨rfl, rfl, rfl⟩

/-- Claim C3, amended: every combinator other than `AnyRule` (and the
delegating `ForwardRule`) returns with `lex_position` equal to its value on
entry whenever it produces no-match; `AnyRule`'s undecorated `exec` may
advance `lex_position` past trailing skippable lexemes on a no-match at end
of input. -/
theorem claim3_amended (fuel : Nat) (env : List Rule) (r : Rule) (s : Input)
    (s' : Input) (h : exec fuel env r s = some (.noMatch, s'))
    (hp : protHead r = true) :
    s'.lex_position = s.lex_position := by
  cases fuel with
  | zero => simp [exec] at h
  | succ fuel =>
    cases r with
    | any => simp [protHead] at hp
    | ref i => simp [protHead] at hp
    | tok i =>
      simp only [exec] at h
      unfold tokExec at h
      cases h1 : peek (fuel+1) (setSkip s i false) with
      | none => rw [h1] at h; simp at h
      | some rs1 =>
        obtain ⟨r1, s2⟩ := rs1
        have hlp : s2.lex_position = s.lex_position := by
          have h9 := peek_lexpos (fuel+1) (setSkip s i false) r1 s2 h1
          simpa [Pegp.setSkip] using h9
        rw [h1] at h
        cases r1 with
        | illegal => simp at h
        | eof =>
          simp only [Option.some_inj, Prod.mk.injEq] at h
          rw [← h.2]
          exact hlp
        | found l =>
          simp only at h
          by_cases hl : l.tok = i
          · rw [if_pos hl] at h
            cases h2 : next (fuel+1)
                (setSkip (setSkip s2 i (skipFlag s.tokens i)) i false) with
            | none => rw [h2] at h; simp at h
            | some rs2 =>
              obtain ⟨r2, s4⟩ := rs2
              rw [h2] at h
              cases r2 <;> simp at h
          · rw [if_neg hl] at h
            simp only [Option.some_inj, Prod.mk.injEq] at h
            rw [← h.2]
            exact hlp
    | seq rs =>
      simp only [exec] at h
      exact protect_noMatch_lexpos (fun s0 o0 s0' h0 hno0 =>
        (seqLoop_frame (exec_frame fuel env) rs [] s0 o0 s0' h0 hno0).1)
        s s' h
    | either rs =>
      simp only [exec] at h
      exact protect_noMatch_lexpos (fun s0 o0 s0' h0 hno0 =>
        (eitherLoop_frame (exec_frame fuel env) rs s0 o0 s0' h0 hno0).1)
        s s' h
    | zeroOrMore r0 =>
      simp only [exec] at h
      exact protect_noMatch_lexpos (fun s0 o0 s0' h0 hno0 =>
        (zomLoop_frame (fun s1 o1 s1' h1 hno1 =>
          exec_frame fuel env r0 s1 o1 s1' h1 hno1)
          fuel [] s0 o0 s0' h0 hno0).1) s s' h
    | opt r0 =>
      simp only [exec] at h
      refine protect_noMatch_lexpos (fun s0 o0 s0' h0 hno0 => ?_) s s' h
      cases h1 : exec fuel env r0 s0 with
      | none => rw [h1] at h0; simp at h0
      | some rs1 =>
        obtain ⟨o1, s1⟩ := rs1
        rw [h1] at h0
        cases o1 with
        | illegal =>
          simp only [Option.some_inj, Prod.mk.injEq] at h0
          exact absurd h0.1.symm hno0
        | noMatch =>
          simp only [Option.some_inj, Prod.mk.injEq] at h0
          rw [← h0.2]
          exact (exec_frame fuel env r0 s0 _ _ h1 (by simp)).1
        | ok v =>
          simp only [Option.some_inj, Prod.mk.injEq] at h0
          rw [← h0.2]
          exact (exec_frame fuel env r0 s0 _ _ h1 (by simp)).1
    | tf r0 fn =>
      simp only [exec] at h
      refine protect_noMatch_lexpos (fun s0 o0 s0' h0 hno0 => ?_) s s' h
      cases h1 : exec fuel env r0 s0 with
      | none => rw [h1] at h0; simp at h0
      | some rs1 =>
        obtain ⟨o1, s1⟩ := rs1
        rw [h1] at h0
        cases o1 with
        | illegal =>
          simp only [Option.some_inj, Prod.mk.injEq] at h0
          exact absurd h0.1.symm hno0
        | noMatch =>
          simp only [Option.some_inj, Prod.mk.injEq] at h0
          rw [← h0.2]
          exact (exec_frame fuel env r0 s0 _ _ h1 (by simp)).1
        | ok v =>
          simp only at h0
          cases hfn : fn v with
          | some u =>
            rw [hfn] at h0
            simp only [Option.some_inj, Prod.mk.injEq] at h0
            rw [← h0.2]
            exact (exec_frame fuel env r0 s0 _ _ h1 (by simp)).1
          | none =>
            rw [hfn] at h0
            simp only [Option.some_inj, Prod.mk.injEq] at h0
            rw [← h0.2]
            exact (exec_frame fuel env r0 s0 _ _ h1 (by simp)).1
    | lookAhead r0 =>
      simp only [exec] at h
      cases h1 : exec fuel env r0 (Pegp.save s) with
      | none => rw [h1] at h; simp at h
      | some rs1 =>
        obtain ⟨o1, s1⟩ := rs1
        rw [h1] at h
        cases o1 with
        | illegal => simp at h
        | ok v => simp at h
        | noMatch =>
          simp only [Option.some_inj, Prod.mk.injEq] at h
          rw [← h.2]
          have hst : s1.stack = s.lex_position :: s.stack :=
            (exec_frame fuel env r0 _ _ _ h1 (by simp)).1
          rw [rollback_cons hst]
    | not r0 =>
      simp only [exec] at h
      cases h1 : exec fuel env r0 (Pegp.save s) with
      | none => rw [h1] at h; simp at h
      | some rs1 =>
        obtain ⟨o1, s1⟩ := rs1
        rw [h1] at h
        cases o1 with
        | illegal => simp at h
        | noMatch => simp at h
        | ok v =>
          simp only [Option.some_inj, Prod.mk.injEq] at h
          rw [← h.2]
          have hst : s1.stack = s.lex_position :: s.stack :=
            (exec_frame fuel env r0 _ _ _ h1 (by simp)).1
          rw [rollback_cons hst]

/-- Claim C3, witness: the amended claim applied to a `TokenRule` that does
not match the upcoming lexeme. -/
theorem claim3_witness :
    (stateOf (exec 10 [] (.tok 0)
        (feed (mkInput [tokA, tokB]) ('b' :: [])))).lex_position =
      (feed (mkInput [tokA, tokB]) ('b' :: [])).lex_position :=
  claim3_amended 10 [] (.tok 0) (feed (mkInput [tokA, tokB]) ('b' :: []))
    (stateOf (exec 10 [] (.tok 0) (feed (mkInput [tokA, tokB]) ('b' :: []))))
    (by rfl) (by rfl)

/-- Claim C7: `LookAhead(r).exec` restores `lex_position` and returns `r`'s
outcome unchanged; `Not(r).exec` restores `lex_position` and succeeds
(producing `null`) exactly when `r` produces no-match (on every outcome
other than a thrown exception). -/
theorem claim7_thm (fuel : Nat) (env : List Rule) (r : Rule) (s : Input) :
    (∀ out s', exec (fuel+1) env (.lookAhead r) s = some (out, s') →
      out ≠ .illegal →
      s'.lex_position = s.lex_position ∧
      (exec fuel env r (save s)).map Prod.fst = some out) ∧
    (∀ out s', exec (fuel+1) env (.not r) s = some (out, s') →
      out ≠ .illegal →
      s'.lex_position = s.lex_position ∧
      ((out = .ok .vnull) ↔
        (exec fuel env r (save s)).map Prod.fst = some .noMatch)) := by
  constructor
  · intro out s' h hno
    simp only [exec] at h
    cases h1 : exec fuel env r (Pegp.save s) with
    | none => rw [h1] at h; simp at h
    | some rs1 =>
      obtain ⟨o1, s1⟩ := rs1
      rw [h1] at h
      cases o1 with
      | illegal =>
        simp only [Option.some_inj, Prod.mk.injEq] at h
        exact absurd h.1.symm hno
      | noMatch =>
        simp only [Option.some_inj, Prod.mk.injEq] at h
        obtain ⟨h2, h3⟩ := h
        subst h2 h3
        have hst : s1.stack = s.lex_position :: s.stack :=
          (exec_frame fuel env r _ _ _ h1 (by simp)).1
        exact ⟨by rw [rollback_cons hst], rfl⟩
      | ok v =>
        simp only [Option.some_inj, Prod.mk.injEq] at h
        obtain ⟨h2, h3⟩ := h
        subst h2 h3
        have hst : s1.stack = s.lex_position :: s.stack :=
          (exec_frame fuel env r _ _ _ h1 (by simp)).1
        exact ⟨by rw [rollback_cons hst], rfl⟩
  · intro out s' h hno
    simp only [exec] at h
    cases h1 : exec fuel env r (Pegp.save s) with
    | none => rw [h1] at h; simp at h
    | some rs1 =>
      obtain ⟨o1, s1⟩ := rs1
      rw [h1] at h
      cases o1 with
      | illegal =>
        simp only [Option.some_inj, Prod.mk.injEq] at h
        exact absurd h.1.symm hno
      | noMatch =>
        simp only [Option.some_inj, Prod.mk.injEq] at h
        obtain ⟨h2, h3⟩ := h
        subst h2 h3
        have hst : s1.stack = s.lex_position :: s.stack :=
          (exec_frame fuel env r _ _ _ h1 (by simp)).1
        exact ⟨by rw [rollback_cons hst], by simp⟩
      | ok v =>
        simp only [Option.some_inj, Prod.mk.injEq] at h
        obtain ⟨h2, h3⟩ := h
        subst h2 h3
        have hst : s1.stack = s.lex_position :: s.stack :=
          (exec_frame fuel env r _ _ _ h1 (by simp)).1
        refine ⟨by rw [rollback_cons hst], ?_⟩
        constructor
        · intro hc; cases hc
        · intro hc; simp at hc

/-- Claim C7, witness: applied to `LookAhead` of a matching token. -/
theorem claim7_witness :
    (stateOf (exec 10 [] (.lookAhead (.tok 0)) sA)).lex_position =
      sA.lex_position :=
  ((claim7_thm 9 [] (.tok 0) sA).1 (.ok (.vlexeme lexA))
    (stateOf (exec 10 [] (.lookAhead (.tok 0)) sA)) (by rfl)
    (by simp)).1

/-- Claim C8, counterexample: the claim says `Optional(r)` on `r`'s no-match
returns `None` and leaves `lex_position` unchanged.  With `r = Any` at end
of input behind a trailing skippable lexeme, `Optional(Any)` returns `null`
but `lex_position` has moved from −1 to 0 (the inner `AnyRule.exec` moved it
and `Optional` commits, because `null` is not `NOMATCH`). -/
theorem claim8_counterexample :
    (feed (mkInput [tokSp]) (' ' :: [])).lex_position = -1 ∧
    outOf (exec 10 [] (.opt .any) (feed (mkInput [tokSp]) (' ' :: []))) =
      some (.ok .vnull) ∧
    (stateOf (exec 10 [] (.opt .any)
      (feed (mkInput [tokSp]) (' ' :: [])))).lex_position = 0 :=
  ⟨rfl, rfl, rfl⟩

/-- Claim C8, amended: `Optional(r).exec` never produces no-match; when `r`
matches it returns exactly `r`'s result and final state; when `r` produces
no-match it returns `null` with exactly the state `r`'s exec left — so
`lex_position` is unchanged precisely when `r`'s own exec restored it. -/
theorem claim8_amended (fuel : Nat) (env : List Rule) (r : Rule) (s : Input)
    (res : Out × Input) (h : exec (fuel+1) env (.opt r) s = some res) :
    res.1 ≠ .noMatch ∧
    (∀ v s1, exec fuel env r s = some (.ok v, s1) → res = (.ok v, s1)) ∧
    (∀ s1, exec fuel env r s = some (.noMatch, s1) →
      res = (.ok .vnull, s1)) := by
  simp only [exec] at h
  refine ⟨?_, ?_, ?_⟩
  · unfold protect at h
    cases h0 : exec fuel env r (Pegp.save s) with
    | none => simp [h0] at h
    | some rs0 =>
      obtain ⟨o0, s0⟩ := rs0
      simp only [h0] at h
      cases o0 <;> simp only [Option.some_inj] at h <;> rw [← h] <;> simp
  · intro v s1 h1
    obtain ⟨hb, hsh⟩ := exec_frame fuel env r s _ _ h1 (by simp)
    have h2 : exec fuel env r (Pegp.save s) =
        some (.ok v, { s1 with stack := s.lex_position :: s.stack }) :=
      hsh (s.lex_position :: s.stack)
    unfold protect at h
    simp only [h2, Option.some_inj] at h
    rw [← h]
    rw [commit_cons (show ({ s1 with stack := s.lex_position :: s.stack } :
      Input).stack = s.lex_position :: s.stack from rfl)]
    rw [show s.stack = s1.stack from hb.symm]
  · intro s1 h1
    obtain ⟨hb, hsh⟩ := exec_frame fuel env r s _ _ h1 (by simp)
    have h2 : exec fuel env r (Pegp.save s) =
        some (.noMatch, { s1 with stack := s.lex_position :: s.stack }) :=
      hsh (s.lex_position :: s.stack)
    unfold protect at h
    simp only [h2, Option.some_inj] at h
    rw [← h]
    rw [commit_cons (show ({ s1 with stack := s.lex_position :: s.stack } :
      Input).stack = s.lex_position :: s.stack from rfl)]
    rw [show s.stack = s1.stack from hb.symm]

/-- Claim C8, witness: `Optional(tok)` on a matching input behaves exactly
like the token rule alone. -/
theorem claim8_witness :
    resOf (exec 10 [] (.opt (.tok 0)) sA) =
      (.ok (.vlexeme lexA), stateOf (exec 9 [] (.tok 0) sA)) :=
  (claim8_amended 9 [] (.tok 0) sA (resOf (exec 10 [] (.opt (.tok 0)) sA))
    (by rfl)).2.1 (.vlexeme lexA) (stateOf (exec 9 [] (.tok 0) sA)) (by rfl)

/-- Claim C10: when the subrule of `ZeroOrMore` matches with a result that
is falsy in JavaScript (`0`, `""`, `false`, `null`), the
`while (res2 = this.rule.exec(l))` loop ends at that iteration without
appending the falsy value, although the subrule's exec has already committed
its consumption: the loop (at any iteration, i.e. any accumulator) returns
the accumulated array and the state the subrule left. -/
theorem claim10_thm :
    (∀ (execf : Input → Option (Out × Input)) (k : Nat) (acc : List Val)
      (s s1 : Input) (v : Val), execf s = some (.ok v, s1) →
      truthy v = false →
      zomLoop execf (k+1) acc s = some (.ok (.varr acc), s1)) ∧
    (∀ (fuel : Nat) (env : List Rule) (r : Rule) (s s1 : Input) (v : Val),
      exec fuel env r s = some (.ok v, s1) → truthy v = false →
      exec (fuel+1) env (.zeroOrMore r) s = some (.ok (.varr []), s1)) := by
  have hloop : ∀ (execf : Input → Option (Out × Input)) (k : Nat)
      (acc : List Val) (s s1 : Input) (v : Val),
      execf s = some (.ok v, s1) → truthy v = false →
      zomLoop execf (k+1) acc s = some (.ok (.varr acc), s1) := by
    intro execf k acc s s1 v h ht
    simp only [zomLoop, h, ht, Bool.false_eq_true, if_false]
  refine ⟨hloop, ?_⟩
  intro fuel env r s s1 v h ht
  cases fuel with
  | zero => simp [exec] at h
  | succ f =>
    obtain ⟨hb, hsh⟩ := exec_frame (f+1) env r s _ _ h (by simp)
    have h2 : exec (f+1) env r (Pegp.save s) =
        some (.ok v, { s1 with stack := s.lex_position :: s.stack }) :=
      hsh (s.lex_position :: s.stack)
    have h3 : zomLoop (fun s' => exec (f+1) env r s') ((f)+1) []
        (Pegp.save s) =
        some (.ok (.varr []), { s1 with stack := s.lex_position :: s.stack }) :=
      hloop _ f [] _ _ v h2 ht
    have hstep : exec (f + 1 + 1) env (.zeroOrMore r) s =
        protect (fun s0 =>
          zomLoop (fun s' => exec (f + 1) env r s') (f + 1) [] s0) s := rfl
    rw [hstep]
    unfold protect
    simp only [h3]
    rw [commit_cons (show ({ s1 with stack := s.lex_position :: s.stack } :
      Input).stack = s.lex_position :: s.stack from rfl)]
    rw [show s.stack = s1.stack from hb.symm]

/-- Claim C10, witness: `ZeroOrMore` of a token transformed to the number 0
consumes the token but returns the empty array. -/
theorem claim10_witness :
    exec 10 [] (.zeroOrMore (.tf (.tok 0) tfZero)) sA =
      some (.ok (.varr []), stateOf (exec 9 [] (.tf (.tok 0) tfZero) sA)) :=
  claim10_thm.2 9 [] (.tf (.tok 0) tfZero) sA
    (stateOf (exec 9 [] (.tf (.tok 0) tfZero) sA)) (.vnum 0) (by rfl) (by rfl)

/-- Claim C6: when the grammar asks for a token that is otherwise skippable,
`TokenRule.exec` clears the rule's `skippable` flag for its `peek` and
`next` so that the token is matched (if the bypassed peek finds a lexeme of
this very rule, the exec returns exactly that lexeme), and the flag — in
fact the whole rule list — is restored to its prior value on every match or
no-match exit. -/
theorem claim6_thm (fuel : Nat) (env : List Rule) (i : Nat) (s : Input)
    (out : Out) (s' : Input)
    (h : exec (fuel+1) env (.tok i) s = some (out, s'))
    (hno : out ≠ .illegal) :
    s'.tokens = s.tokens ∧
    (∀ l s2, peek (fuel+1) (setSkip s i false) = some (.found l, s2) →
      l.tok = i → s.lex_position < (s.lexemes.length : Int) →
      out = .ok (.vlexeme l)) := by
  simp only [exec] at h
  unfold tokExec at h
  cases h1 : peek (fuel+1) (setSkip s i false) with
  | none => rw [h1] at h; simp at h
  | some rs1 =>
    obtain ⟨r1, s2⟩ := rs1
    have ht2 : s2.tokens = setSkipList s.tokens i false := by
      have h9 := (peek_lexEvo _ _ _ _ h1).2.2
      simpa [Pegp.setSkip] using h9
    rw [h1] at h
    cases r1 with
    | illegal =>
      simp only [Option.some_inj, Prod.mk.injEq] at h
      exact absurd h.1.symm hno
    | eof =>
      simp only [Option.some_inj, Prod.mk.injEq] at h
      refine ⟨?_, ?_⟩
      · rw [← h.2]
        show setSkipList s2.tokens i (skipFlag s.tokens i) = s.tokens
        rw [ht2, setSkipList_restore]
      · intro l s2' hpk
        simp at hpk
    | found l0 =>
      simp only at h
      by_cases hl : l0.tok = i
      · rw [if_pos hl] at h
        have hset : setSkipList
            (setSkipList s2.tokens i (skipFlag s.tokens i)) i false =
            s2.tokens := by
          rw [setSkipList_setSkipList, ht2, setSkipList_setSkipList]
        have harg : setSkip (setSkip s2 i (skipFlag s.tokens i)) i false = s2 := by
          show ({ s2 with tokens := setSkipList (setSkipList s2.tokens i (skipFlag s.tokens i)) i false } : Input) = s2
          rw [hset]
        rw [harg] at h
        cases h2 : next (fuel+1) s2 with
        | none => rw [h2] at h; simp at h
        | some rs2 =>
          obtain ⟨r2, s4⟩ := rs2
          have ht4 : s4.tokens = setSkipList s.tokens i false :=
            ((next_lexEvo _ _ _ _ h2).2.2).trans ht2
          rw [h2] at h
          cases r2 with
          | illegal =>
            simp only [Option.some_inj, Prod.mk.injEq] at h
            exact absurd h.1.symm hno
          | eof =>
            simp only [Option.some_inj, Prod.mk.injEq] at h
            refine ⟨?_, ?_⟩
            · rw [← h.2]
              show setSkipList s4.tokens i (skipFlag s.tokens i) = s.tokens
              rw [ht4, setSkipList_restore]
            · intro l s2' hpk hli hpos
              simp only [Option.some_inj, Prod.mk.injEq,
                LexRes.found.injEq] at hpk
              obtain ⟨hpl, hps⟩ := hpk
              rw [hpl, hps] at h1
              obtain ⟨s3, hnx⟩ := peek_next_coherence (fuel+1)
                (setSkip s i false) l s2'
                (by simpa [Pegp.setSkip] using hpos) h1
              rw [← hps] at hnx
              rw [h2] at hnx
              simp at hnx
          | found l2 =>
            simp only [Option.some_inj, Prod.mk.injEq] at h
            refine ⟨?_, ?_⟩
            · rw [← h.2]
              show setSkipList s4.tokens i (skipFlag s.tokens i) = s.tokens
              rw [ht4, setSkipList_restore]
            · intro l s2' hpk hli hpos
              simp only [Option.some_inj, Prod.mk.injEq,
                LexRes.found.injEq] at hpk
              obtain ⟨hpl, hps⟩ := hpk
              rw [hpl, hps] at h1
              obtain ⟨s3, hnx⟩ := peek_next_coherence (fuel+1)
                (setSkip s i false) l s2'
                (by simpa [Pegp.setSkip] using hpos) h1
              rw [← hps] at hnx
              rw [h2] at hnx
              simp only [Option.some_inj, Prod.mk.injEq,
                LexRes.found.injEq] at hnx
              rw [← h.1, hnx.1]
      · rw [if_neg hl] at h
        simp only [Option.some_inj, Prod.mk.injEq] at h
        refine ⟨?_, ?_⟩
        · rw [← h.2]
          show setSkipList s2.tokens i (skipFlag s.tokens i) = s.tokens
          rw [ht2, setSkipList_restore]
        · intro l s2' hpk hli hpos
          simp only [Option.some_inj, Prod.mk.injEq,
            LexRes.found.injEq] at hpk
          exact absurd (by rw [hpk.1]; exact hli) hl

/-- Claim C6, witness: asking for a skippable whitespace token matches it
deterministically, and the token list (with its flags) is exactly restored
afterwards. -/
theorem claim6_witness :
    (resOf (exec 10 [] (.tok 0) (feed (mkInput [tokSp]) (' ' :: [])))).1 =
      .ok (.vlexeme ⟨(' ' :: []), 0, 0, 1, 1⟩) ∧
    (resOf (exec 10 [] (.tok 0)
      (feed (mkInput [tokSp]) (' ' :: [])))).2.tokens =
      (feed (mkInput [tokSp]) (' ' :: [])).tokens := by
  have h := claim6_thm 9 [] 0 (feed (mkInput [tokSp]) (' ' :: []))
    (resOf (exec 10 [] (.tok 0) (feed (mkInput [tokSp]) (' ' :: [])))).1
    (resOf (exec 10 [] (.tok 0) (feed (mkInput [tokSp]) (' ' :: [])))).2
    (by rfl) (fun hc => by exact Out.noConfusion hc)
  refine ⟨?_, h.1⟩
  exact h.2 ⟨(' ' :: []), 0, 0, 1, 1⟩
    (lexStateOf (peek 10 (setSkip (feed (mkInput [tokSp]) (' ' :: [])) 0 false)))
    (by rfl) (by rfl) (by decide)

/-- Claim C4, counterexample: the claim says each byte offset is tokenised
at most once regardless of backtracking.  With a token rule whose regex
matches the empty string, offset 0 is tokenised twice in a single forward
parse (no backtracking at all): two lexemes are created at index 0. -/
theorem claim4_counterexample :
    (stateOf (exec 10 [] (.seq [.any, .any])
      (feed (mkInput [tokEmpty]) ('b' :: [])))).lexemes.map (·.index) =
      [0, 0] := by rfl

/-- Claim C4, amended: `rollback` only restores `lex_position` and never
removes lexemes (nor moves `last_index`); under any execution the lexeme
vector only grows and `last_index` never decreases; and *provided every
token match is non-empty*, every byte offset is tokenised at most once —
the created lexemes' start offsets are strictly increasing.  (A
zero-length-matching token rule violates this, see the counterexample.) -/
theorem claim4_amended :
    (∀ s : Input, (rollback s).lexemes = s.lexemes ∧
      (rollback s).last_index = s.last_index ∧
      (rollback s).string = s.string) ∧
    (∀ (fuel : Nat) (env : List Rule) (r : Rule) (s : Input) (out : Out)
      (s' : Input), exec fuel env r s = some (out, s') →
      (∃ t, s'.lexemes = s.lexemes ++ t) ∧
      s.last_index ≤ s'.last_index ∧
      (NEmatchers (s.tokens.map (·.matchAt)) → invB s = true →
        allNE s.lexemes = true →
        (s'.lexemes.map (·.index)).Pairwise (· < ·))) := by
  constructor
  · intro s
    unfold rollback
    cases s.stack <;> simp
  · intro fuel env r s out s' h
    obtain ⟨e1, e2, e3, e4, e5, e6⟩ := exec_evo fuel env r s out s' h
    refine ⟨e3, e4, fun hne hinv hall => ?_⟩
    have hinv2 : invB s' = true := e5 hinv
    have hall2 : allNE s'.lexemes = true := e6 hne hall
    unfold invB at hinv2
    cases hls : s'.lexemes with
    | nil => simp
    | cons l0 rest =>
      rw [hls] at hinv2 hall2
      have hch := invL_chain hinv2 l0 rest rfl
      exact chainB_pairwise_lt l0.index (l0 :: rest) hch hall2

/-- Claim C4, witness: the amended claim applied to a token parse over a
single-character matcher. -/
theorem claim4_witness :
    ((stateOf (exec 10 [] (.tok 0) sA)).lexemes.map (·.index)).Pairwise
      (· < ·) := by
  have hne : NEmatchers (sA.tokens.map (·.matchAt)) := by
    intro m hm str i n hmn
    have hm2 : m = charMatcher 'a' := by
      simpa [sA, feed, mkInput, tokA] using hm
    rw [hm2] at hmn
    cases hg : str.get? i with
    | none =>
      simp only [charMatcher, hg] at hmn
      exact Option.noConfusion hmn
    | some c2 =>
      simp only [charMatcher, hg] at hmn
      by_cases hc : c2 = 'a'
      · rw [if_pos hc] at hmn
        simp only [Option.some_inj] at hmn
        omega
      · rw [if_neg hc] at hmn
        simp at hmn
  exact (claim4_amended.2 10 [] (.tok 0) sA
    (resOf (exec 10 [] (.tok 0) sA)).1 (stateOf (exec 10 [] (.tok 0) sA))
    (by rfl)).2.2 hne (by rfl) (by rfl)

/-- Claim C9: at every point during a parse, consecutive lexemes in the
vector occupy adjacent, non-overlapping byte ranges: the invariant holds at
the freshly fed `Input` and is preserved by every execution step, and it
entails `l.index + l.text.length = index of the following lexeme` together
with ascending indices. -/
theorem claim9_thm (toks : List TokenRule) (str : List Char) :
    invB (feed (mkInput toks) str) = true ∧
    (∀ (fuel : Nat) (env : List Rule) (r : Rule) (s : Input) (out : Out)
      (s' : Input), exec fuel env r s = some (out, s') → invB s = true →
      invB s' = true ∧
      (∀ k, k + 1 < s'.lexemes.length →
        (s'.lexemes.getD k default).index +
          (s'.lexemes.getD k default).text.length =
        (s'.lexemes.getD (k+1) default).index) ∧
      (s'.lexemes.map (·.index)).Pairwise (· ≤ ·)) := by
  constructor
  · rfl
  · intro fuel env r s out s' h hinv
    obtain ⟨e1, e2, e3, e4, e5, e6⟩ := exec_evo fuel env r s out s' h
    have hinv2 : invB s' = true := e5 hinv
    refine ⟨hinv2, ?_, ?_⟩
    · unfold invB at hinv2
      cases hls : s'.lexemes with
      | nil => intro k hk; simp at hk
      | cons l0 rest =>
        rw [hls] at hinv2
        have hch := invL_chain hinv2 l0 rest rfl
        intro k hk
        exact chainB_adjacent l0.index (l0 :: rest) hch k hk
    · unfold invB at hinv2
      cases hls : s'.lexemes with
      | nil => simp
      | cons l0 rest =>
        rw [hls] at hinv2
        have hch := invL_chain hinv2 l0 rest rfl
        exact chainB_pairwise_le l0.index (l0 :: rest) hch

/-- Claim C9, witness: the adjacency equation on the lexemes produced while
parsing a skippable space followed by `a`. -/
theorem claim9_witness :
    ((stateOf (exec 10 [] (.tok 1)
      (feed (mkInput [tokSp, tokA]) (' ' :: 'a' :: [])))).lexemes.map
        (·.index)).Pairwise (· ≤ ·) :=
  ((claim9_thm [tokSp, tokA] (' ' :: 'a' :: [])).2 10 [] (.tok 1)
    (feed (mkInput [tokSp, tokA]) (' ' :: 'a' :: []))
    (resOf (exec 10 [] (.tok 1)
      (feed (mkInput [tokSp, tokA]) (' ' :: 'a' :: [])))).1
    (stateOf (exec 10 [] (.tok 1)
      (feed (mkInput [tokSp, tokA]) (' ' :: 'a' :: []))))
    (by rfl) (by rfl)).2.2

end Pegp
